import Mathlib

/-!
# Lowered SIL types (`lib/SIL/SILType.cpp`)

A shallow embedding of the member functions of `SILType` defined in
`lib/SIL/SILType.cpp`, together with the parts of the AST and of the SIL module
they consult.  Pointers into the AST (type nodes, declarations) are natural
numbers; pointer equality is equality of numbers.  Everything the source file
obtains from another component (the canonical type graph, the declarations, the
substitutor, the lowering cache) is a field of `ASTContext` or `SILModule`, so
every theorem holds for all of them.

A `SmallVector` used as a stack is a `List` whose head is the back of the vector:
`push_back x` is `x :: wl` and `pop_back_val` takes the head.
-/

namespace SILModel

/-! ## Data model -/

/-- Pointer to a type node (`Type`), canonical or not. -/
abbrev TypePtr := Nat

/-- Pointer to a canonical type node (`CanType`); equality is pointer equality. -/
abbrev CanType := Nat

/-- Pointer to a declaration or declaration context. -/
abbrev DeclPtr := Nat

/-- Outcome of a call in a checked build: a returned value or a failed `assert`. -/
inductive Checked (α : Type) where
  | ok (a : α)
  | assertionFailure
deriving DecidableEq, Repr

/-- Modelled from the spec: `SILValueCategory` of `swift/SIL/SILType.h` (absent),
the storage category, `Object` being the spec's Value. -/
inductive SILValueCategory where
  | Object
  | Address
deriving DecidableEq, Repr

/-- Modelled from the spec: the class `SILType` of `swift/SIL/SILType.h` (absent):
an abstract type identity plus a storage category; equality compares both.  The null
`SILType()` is not a value of this structure, functions that may return it return an
`Option`. -/
structure SILType where
  ty : CanType
  category : SILValueCategory
deriving DecidableEq, Repr

/-- Modelled from the spec: `SILType::getPrimitiveObjectType` of the absent header,
tagging an identity with the Value category. -/
def SILType.getPrimitiveObjectType (T : CanType) : SILType :=
  ⟨T, .Object⟩

/-- Modelled from the spec: `SILType::getObjectType` of the absent header, forcing the
category to Value without touching the identity. -/
def SILType.getObjectType (self : SILType) : SILType :=
  ⟨self.ty, .Object⟩

/-- Modelled from the spec: `SILType::getAddressType` of the absent header, forcing the
category to Address without touching the identity. -/
def SILType.getAddressType (self : SILType) : SILType :=
  ⟨self.ty, .Address⟩

/-- Modelled from the spec: `SILType::isAddress` of the absent header. -/
def SILType.isAddress (self : SILType) : Bool :=
  self.category == .Address

/-- Modelled from the spec: `SILType::isObject` of the absent header. -/
def SILType.isObject (self : SILType) : Bool :=
  self.category == .Object

/-- Modelled from the spec: the closed set of shapes a canonical type node can have
(`swift/AST/Types.h`, absent), as far as `SILType.cpp` distinguishes them. -/
inductive TypeKind where
  | Tuple (numElements : Nat)
  | Enum (decl : DeclPtr)
  | BoundGenericEnum (decl : DeclPtr) (genericArgs : List TypePtr)
  | Struct (decl : DeclPtr)
  | BoundGenericStruct (decl : DeclPtr) (genericArgs : List TypePtr)
  | Class (decl : DeclPtr)
  | BoundGenericClass (decl : DeclPtr) (genericArgs : List TypePtr)
  | Protocol (decl : DeclPtr)
  | UnboundGeneric (decl : DeclPtr)
  | SILFunction (isPolymorphic : Bool)
  | AnyMetatype (instanceType : TypePtr)
  | Other
deriving DecidableEq, Repr

/-- Modelled from the spec: a stored property (`VarDecl`, absent): its identity, its
declaration context and its declared type. -/
structure VarDecl where
  id : DeclPtr
  declContext : DeclPtr
  type : TypePtr
deriving DecidableEq, Repr

/-- Modelled from the spec: an enumeration case (`EnumElementDecl`, absent);
`argumentType` is present exactly when the case carries a payload. -/
structure EnumElementDecl where
  id : DeclPtr
  declContext : DeclPtr
  argumentType : Option TypePtr
deriving DecidableEq, Repr

/-- The test `Elt->hasArgumentType()`. -/
def EnumElementDecl.hasArgumentType (elt : EnumElementDecl) : Bool :=
  elt.argumentType.isSome

/-- Modelled from the spec: `AbstractionPattern` (absent), wrapping an original type. -/
structure AbstractionPattern where
  origType : TypePtr
deriving DecidableEq, Repr

/-- Modelled from the spec: `OptionalTypeKind` (absent), the result of
`classifyAsOptionalType`. -/
inductive OptionalTypeKind where
  | OTK_None
  | OTK_Optional
  | OTK_ImplicitlyUnwrappedOptional
deriving DecidableEq, Repr

/-- Modelled from the spec: `BuiltinFloatType::FPKind` (absent). -/
inductive FPKind where
  | IEEE16
  | IEEE32
  | IEEE64
  | IEEE80
  | IEEE128
  | PPC128
deriving DecidableEq, Repr

/-- Modelled from the spec: an entry of a substitution list (`Substitution`, absent). -/
structure Substitution where
  archetype : TypePtr
  replacement : TypePtr
deriving DecidableEq, Repr

/-- Modelled from the spec: the `ASTContext` (absent), owner of the canonical type graph
and of the declarations. -/
structure ASTContext where
  TheNativeObjectType : CanType
  TheUnknownObjectType : CanType
  TheRawPointerType : CanType
  TheIEEE16Type : CanType
  TheIEEE32Type : CanType
  TheIEEE64Type : CanType
  TheIEEE80Type : CanType
  TheIEEE128Type : CanType
  ThePPC128Type : CanType
  getBuiltinIntegerType : Nat → CanType
  getWordType : CanType
  kindOf : CanType → TypeKind
  getCanonicalType : TypePtr → CanType
  hasArchetype : CanType → Bool
  mayHaveSuperclass : CanType → Bool
  getStoredProperties : DeclPtr → List VarDecl
  getAllElements : DeclPtr → List EnumElementDecl
  classifyAsOptionalType : DeclPtr → OptionalTypeKind
  getTypeOfMember : CanType → VarDecl → TypePtr
  getTypeOfEnumElement : CanType → EnumElementDecl → TypePtr → TypePtr
  substInterfaceGenericArgs : CanType → List Substitution → CanType

/-- Modelled from the spec: the `SILModule` (absent) with its type-lowering cache
`M.Types` and the tuple-slot projection of the absent header. -/
structure SILModule where
  C : ASTContext
  getLoweredType : CanType → SILType
  getLoweredTypeWithPattern : AbstractionPattern → TypePtr → SILType
  getTupleElementType : SILType → Nat → SILType
  isTrivialLowering : SILType → Bool
  isAddressOnlyLowering : SILType → Bool

/-! ## Shape queries on a lowered type -/

/-- Modelled from the spec: `getAs<TupleType>()` (absent): the number of slots of a
tuple-shaped type. -/
def getAsTupleType (M : SILModule) (Ty : SILType) : Option Nat :=
  match M.C.kindOf Ty.ty with
  | .Tuple n => some n
  | _ => none

/-- Modelled from the spec: `getEnumOrBoundGenericEnum()` (absent). -/
def getEnumOrBoundGenericEnum (M : SILModule) (Ty : SILType) : Option DeclPtr :=
  match M.C.kindOf Ty.ty with
  | .Enum d => some d
  | .BoundGenericEnum d _ => some d
  | _ => none

/-- Modelled from the spec: `getStructOrBoundGenericStruct()` (absent). -/
def getStructOrBoundGenericStruct (M : SILModule) (Ty : SILType) : Option DeclPtr :=
  match M.C.kindOf Ty.ty with
  | .Struct d => some d
  | .BoundGenericStruct d _ => some d
  | _ => none

/-- Modelled from the spec: `getClassOrBoundGenericClass()` (absent). -/
def getClassOrBoundGenericClass (M : SILModule) (Ty : SILType) : Option DeclPtr :=
  match M.C.kindOf Ty.ty with
  | .Class d => some d
  | .BoundGenericClass d _ => some d
  | _ => none

/-- Modelled from the spec: `getNominalOrBoundGenericNominal()` (absent). -/
def getNominalOrBoundGenericNominal (M : SILModule) (Ty : SILType) : Option DeclPtr :=
  match M.C.kindOf Ty.ty with
  | .Enum d => some d
  | .BoundGenericEnum d _ => some d
  | .Struct d => some d
  | .BoundGenericStruct d _ => some d
  | .Class d => some d
  | .BoundGenericClass d _ => some d
  | .Protocol d => some d
  | _ => none

/-- Modelled from the spec: `getAs<BoundGenericEnumType>()` (absent): declaration and
generic arguments of a bound generic enumeration. -/
def getAsBoundGenericEnumType (M : SILModule) (Ty : SILType) :
    Option (DeclPtr × List TypePtr) :=
  match M.C.kindOf Ty.ty with
  | .BoundGenericEnum d args => some (d, args)
  | _ => none

/-! ## The functions of `SILType.cpp` -/

/-- `SILType::getNativeObjectType`. -/
def getNativeObjectType (C : ASTContext) : SILType :=
  SILType.mk C.TheNativeObjectType SILValueCategory.Object

/-- `SILType::getUnknownObjectType`. -/
def getUnknownObjectType (C : ASTContext) : SILType :=
  SILType.getPrimitiveObjectType C.TheUnknownObjectType

/-- `SILType::getRawPointerType`. -/
def getRawPointerType (C : ASTContext) : SILType :=
  SILType.getPrimitiveObjectType C.TheRawPointerType

/-- `SILType::getBuiltinIntegerType`. -/
def getBuiltinIntegerType (bitWidth : Nat) (C : ASTContext) : SILType :=
  SILType.getPrimitiveObjectType (C.getBuiltinIntegerType bitWidth)

/-- `SILType::getBuiltinFloatType`. -/
def getBuiltinFloatType (Kind : FPKind) (C : ASTContext) : SILType :=
  let ty : CanType :=
    match Kind with
    | .IEEE16 => C.TheIEEE16Type
    | .IEEE32 => C.TheIEEE32Type
    | .IEEE64 => C.TheIEEE64Type
    | .IEEE80 => C.TheIEEE80Type
    | .IEEE128 => C.TheIEEE128Type
    | .PPC128 => C.ThePPC128Type
  SILType.getPrimitiveObjectType ty

/-- `SILType::getBuiltinWordType`. -/
def getBuiltinWordType (C : ASTContext) : SILType :=
  SILType.getPrimitiveObjectType C.getWordType

/-- `SILType::isTrivial`. -/
def isTrivial (M : SILModule) (self : SILType) : Bool :=
  M.isTrivialLowering self

/-- `SILType::isAddressOnly`. -/
def isAddressOnly (M : SILModule) (self : SILType) : Bool :=
  M.isAddressOnlyLowering self

/-- `SILType::getFieldType`: the assertion on the owner of the field, then
substitution, lowering, and the choice of the category. -/
def getFieldType (M : SILModule) (self : SILType) (field : VarDecl) : Checked SILType :=
  if some field.declContext = getNominalOrBoundGenericNominal M self then
    let origFieldTy := AbstractionPattern.mk field.type
    let substFieldTy := M.C.getTypeOfMember self.ty field
    let loweredTy := M.getLoweredTypeWithPattern origFieldTy substFieldTy
    if self.isAddress || (getClassOrBoundGenericClass M self).isSome then
      .ok loweredTy.getAddressType
    else
      .ok loweredTy.getObjectType
  else
    .assertionFailure

/-- `SILType::getEnumElementType`: the two assertions, then substitution, lowering, and
the category of the aggregate. -/
def getEnumElementType (M : SILModule) (self : SILType) (elt : EnumElementDecl) :
    Checked SILType :=
  if some elt.declContext = getEnumOrBoundGenericEnum M self then
    match elt.argumentType with
    | none => .assertionFailure
    | some origEltTy =>
      let substEltTy := M.C.getTypeOfEnumElement self.ty elt origEltTy
      let loweredTy := M.getLoweredTypeWithPattern (AbstractionPattern.mk origEltTy) substEltTy
      .ok (SILType.mk loweredTy.ty self.category)
  else
    .assertionFailure

/-- `SILType::substInterfaceGenericArgs`: `castTo<SILFunctionType>` asserts the shape,
then the two branches on `Subs.empty()` each assert on `isPolymorphic()`. -/
def substInterfaceGenericArgs (M : SILModule) (self : SILType) (Subs : List Substitution) :
    Checked SILType :=
  match M.C.kindOf self.ty with
  | .SILFunction isPolymorphic =>
    if Subs.isEmpty then
      if !isPolymorphic then .ok self else .assertionFailure
    else
      if isPolymorphic then
        let canFnTy := M.C.substInterfaceGenericArgs self.ty Subs
        .ok (SILType.getPrimitiveObjectType canFnTy)
      else .assertionFailure
  | _ => .assertionFailure

/-- `SILType::isHeapObjectReferenceType`. -/
def isHeapObjectReferenceType (M : SILModule) (self : SILType) : Bool :=
  let C := M.C
  if C.mayHaveSuperclass self.ty then true
  else if self.ty = C.TheNativeObjectType then true
  else if self.ty = C.TheUnknownObjectType then true
  else false

/-- `SILType::getMetatypeInstanceType`. -/
def getMetatypeInstanceType (M : SILModule) (self : SILType) : Checked SILType :=
  match M.C.kindOf self.ty with
  | .AnyMetatype instanceType =>
    if self.isObject then .ok (M.getLoweredType (M.C.getCanonicalType instanceType))
    else .assertionFailure
  | _ => .assertionFailure

/-- The loop `for (i = 0; i != e; ++i) Worklist.push_back(Ty.getTupleElementType(i))`. -/
def pushTupleElements (M : SILModule) (Ty : SILType) (e : Nat) (Worklist : List SILType) :
    List SILType :=
  (List.range e).foldl (fun wl i => M.getTupleElementType Ty i :: wl) Worklist

/-- The loop over `E->getAllElements()` pushing the payload type of each case that has
one; a failed assertion in `getEnumElementType` aborts. -/
def pushEnumElements (M : SILModule) (Ty : SILType) :
    List EnumElementDecl → List SILType → Checked (List SILType)
  | [], Worklist => .ok Worklist
  | Elt :: rest, Worklist =>
    if Elt.hasArgumentType then
      match getEnumElementType M Ty Elt with
      | .ok t => pushEnumElements M Ty rest (t :: Worklist)
      | .assertionFailure => .assertionFailure
    else
      pushEnumElements M Ty rest Worklist

/-- The loop over `S->getStoredProperties()` pushing the type of each field; a failed
assertion in `getFieldType` aborts. -/
def pushStoredProperties (M : SILModule) (Ty : SILType) :
    List VarDecl → List SILType → Checked (List SILType)
  | [], Worklist => .ok Worklist
  | Var :: rest, Worklist =>
    match getFieldType M Ty Var with
    | .ok t => pushStoredProperties M Ty rest (t :: Worklist)
    | .assertionFailure => .assertionFailure

/-- The `while (!Worklist.empty())` loop of `SILType::aggregateContainsRecord`; each
iteration uses one unit of fuel and `none` means the fuel ran out before the loop ended. -/
def aggregateContainsRecordLoop (M : SILModule) (Record : SILType) :
    Nat → List SILType → Option (Checked Bool)
  | _, [] => some (.ok false)
  | 0, _ :: _ => none
  | fuel + 1, Ty :: Worklist =>
    if Ty = Record then some (.ok true)
    else
      match getAsTupleType M Ty with
      | some e => aggregateContainsRecordLoop M Record fuel (pushTupleElements M Ty e Worklist)
      | none =>
        match getEnumOrBoundGenericEnum M Ty with
        | some E =>
          match pushEnumElements M Ty (M.C.getAllElements E) Worklist with
          | .ok wl => aggregateContainsRecordLoop M Record fuel wl
          | .assertionFailure => some .assertionFailure
        | none =>
          match getStructOrBoundGenericStruct M Ty with
          | some S =>
            match pushStoredProperties M Ty (M.C.getStoredProperties S) Worklist with
            | .ok wl => aggregateContainsRecordLoop M Record fuel wl
            | .assertionFailure => some .assertionFailure
          | none => aggregateContainsRecordLoop M Record fuel Worklist

/-- `SILType::aggregateContainsRecord`: the two assertions on archetypes, then the
worklist loop seeded with the aggregate itself. -/
def aggregateContainsRecord (M : SILModule) (fuel : Nat) (self Record : SILType) :
    Option (Checked Bool) :=
  if M.C.hasArchetype self.ty then some .assertionFailure
  else if M.C.hasArchetype Record.ty then some .assertionFailure
  else aggregateContainsRecordLoop M Record fuel [self]

/-- `SILType::getOptionalObjectType`: the null `SILType()` is `none`; indexing an empty
argument list fails the bounds assertion of `ArrayRef`. -/
def getOptionalObjectType (M : SILModule) (self : SILType) : Checked (Option SILType) :=
  match getAsBoundGenericEnumType M self.getObjectType with
  | some (decl, genericArgs) =>
    if M.C.classifyAsOptionalType decl = .OTK_Optional then
      match genericArgs with
      | arg0 :: _ => .ok (some (M.getLoweredType (M.C.getCanonicalType arg0)))
      | [] => .assertionFailure
    else .ok none
  | none => .ok none

/-! ## Specification-side notions -/

/-- Invariant of the AST: the cases listed by an enumeration declaration and the stored
properties listed by a nominal declaration have that declaration as their context. -/
structure WellFormedAST (M : SILModule) : Prop where
  elementOwner : ∀ E elt, elt ∈ M.C.getAllElements E → elt.declContext = E
  propertyOwner : ∀ S v, v ∈ M.C.getStoredProperties S → v.declContext = S

/-- Member edges in the words of the specification: the slots of a tuple, the projected
payload types of the payload-carrying cases of an enumeration, the projected field
types of the stored fields of a structure, and nothing else. -/
inductive MemberEdge (M : SILModule) : SILType → SILType → Prop where
  | tupleSlot {t : SILType} {n i : Nat} :
      M.C.kindOf t.ty = .Tuple n → i < n → MemberEdge M t (M.getTupleElementType t i)
  | enumPayload {t c : SILType} {E : DeclPtr} {elt : EnumElementDecl} :
      getEnumOrBoundGenericEnum M t = some E → elt ∈ M.C.getAllElements E →
      elt.hasArgumentType = true → getEnumElementType M t elt = .ok c → MemberEdge M t c
  | structField {t c : SILType} {S : DeclPtr} {v : VarDecl} :
      getStructOrBoundGenericStruct M t = some S → v ∈ M.C.getStoredProperties S →
      getFieldType M t v = .ok c → MemberEdge M t c

/-- Reachability by zero or more member edges. -/
def Reachable (M : SILModule) : SILType → SILType → Prop :=
  Relation.ReflTransGen (MemberEdge M)

/-- A finite, acyclic member graph: finitely many edges, and no type reachable from
itself by one or more edges. -/
structure FiniteAcyclic (M : SILModule) : Prop where
  finite : Set.Finite {p : SILType × SILType | MemberEdge M p.1 p.2}
  acyclic : ∀ t, ¬ Relation.TransGen (MemberEdge M) t t

/-- A type without member edges. -/
def IsLeaf (M : SILModule) (t : SILType) : Prop :=
  ∀ c, ¬ MemberEdge M t c

/-- The value of a successful call, if any. -/
def Checked.toOption {α : Type} : Checked α → Option α
  | .ok a => some a
  | .assertionFailure => none

/-- The types pushed for a popped type, in the order in which the loop body pushes
them (projections whose assertion fails contribute nothing). -/
def subRecords (M : SILModule) (Ty : SILType) : List SILType :=
  match getAsTupleType M Ty with
  | some e => (List.range e).map (M.getTupleElementType Ty)
  | none =>
    match getEnumOrBoundGenericEnum M Ty with
    | some E =>
      (M.C.getAllElements E).filterMap
        (fun Elt => if Elt.hasArgumentType then (getEnumElementType M Ty Elt).toOption else none)
    | none =>
      match getStructOrBoundGenericStruct M Ty with
      | some S => (M.C.getStoredProperties S).filterMap (fun Var => (getFieldType M Ty Var).toOption)
      | none => []

/-- The search with an arbitrary worklist discipline: the next type is taken from the
head, and `push t ms wl` merges the members `ms` of the popped type `t` into the
remaining worklist `wl`. -/
def searchWith (M : SILModule) (push : SILType → List SILType → List SILType → List SILType)
    (Record : SILType) : Nat → List SILType → Option Bool
  | _, [] => some false
  | 0, _ :: _ => none
  | fuel + 1, Ty :: Worklist =>
    if Ty = Record then some true
    else searchWith M push Record fuel (push Ty (subRecords M Ty) Worklist)

/-- The discipline of the code: a LIFO stack, members pushed in declaration order. -/
def lifoPush (_ : SILType) (ms wl : List SILType) : List SILType :=
  ms.reverse ++ wl

/-- A FIFO queue: members are appended at the far end of the worklist. -/
def fifoPush (_ : SILType) (ms wl : List SILType) : List SILType :=
  wl ++ ms

/-- A LIFO stack on which the members of each popped type are pushed in the order
chosen by `σ`. -/
def permutedPush (σ : SILType → List SILType → List SILType) (t : SILType)
    (ms wl : List SILType) : List SILType :=
  (σ t ms).reverse ++ wl

/-- A discipline is fair when it neither drops nor duplicates nor invents entries. -/
def FairPush (push : SILType → List SILType → List SILType → List SILType) : Prop :=
  ∀ t ms wl, (push t ms wl).Perm (ms ++ wl)

/-- Storage edges: the member edges, and in addition the projected types of the stored
fields of a class, which live in the heap object the reference points to. -/
inductive StorageEdge (M : SILModule) : SILType → SILType → Prop where
  | member {t c : SILType} : MemberEdge M t c → StorageEdge M t c
  | classField {t c : SILType} {K : DeclPtr} {v : VarDecl} :
      getClassOrBoundGenericClass M t = some K → v ∈ M.C.getStoredProperties K →
      getFieldType M t v = .ok c → StorageEdge M t c

/-- Reachability along storage edges by a path that never leaves a class-shaped type. -/
def ReachableAvoidingClasses (M : SILModule) : SILType → SILType → Prop :=
  Relation.ReflTransGen
    (fun t c => StorageEdge M t c ∧ getClassOrBoundGenericClass M t = none)

/-- The types popped by the loop of `SILType::aggregateContainsRecord`, in the order of
the pops: the same loop as `aggregateContainsRecordLoop`, recording `Ty` at each
`pop_back_val` instead of computing the result. -/
def aggregateContainsRecordPops (M : SILModule) (Record : SILType) :
    Nat → List SILType → List SILType
  | _, [] => []
  | 0, _ :: _ => []
  | fuel + 1, Ty :: Worklist =>
    Ty ::
      (if Ty = Record then []
      else
        match getAsTupleType M Ty with
        | some e => aggregateContainsRecordPops M Record fuel (pushTupleElements M Ty e Worklist)
        | none =>
          match getEnumOrBoundGenericEnum M Ty with
          | some E =>
            match pushEnumElements M Ty (M.C.getAllElements E) Worklist with
            | .ok wl => aggregateContainsRecordPops M Record fuel wl
            | .assertionFailure => []
          | none =>
            match getStructOrBoundGenericStruct M Ty with
            | some S =>
              match pushStoredProperties M Ty (M.C.getStoredProperties S) Worklist with
              | .ok wl => aggregateContainsRecordPops M Record fuel wl
              | .assertionFailure => []
            | none => aggregateContainsRecordPops M Record fuel Worklist)

/-- The roots without member edges in the words of the specification: an empty tuple,
an enumeration none of whose cases carries a payload, a structure without stored
fields, and every class, protocol, function, metatype or primitive type. -/
def HasNoMembers (M : SILModule) (t : SILType) : Prop :=
  match M.C.kindOf t.ty with
  | .Tuple n => n = 0
  | .Enum d => ∀ elt ∈ M.C.getAllElements d, elt.hasArgumentType = false
  | .BoundGenericEnum d _ => ∀ elt ∈ M.C.getAllElements d, elt.hasArgumentType = false
  | .Struct d => M.C.getStoredProperties d = []
  | .BoundGenericStruct d _ => M.C.getStoredProperties d = []
  | _ => True

/-! ## A small module used to instantiate the theorems

Type 0 and type 1 are primitives `A` and `B`, type 2 is the tuple `(A, B)`, type 3 is a
class `K` (declaration 10) with one stored field of type `A`, type 4 is a structure `S`
(declaration 11) with one stored field of type `K`, type 5 is `Optional<A>`
(declaration 12, cases `some(A)` and `none`), type 6 is a closed function type and
type 7 a polymorphic one. -/

/-- Shapes of the types of the example module. -/
def exampleKind : CanType → TypeKind
  | 2 => .Tuple 2
  | 3 => .Class 10
  | 4 => .Struct 11
  | 5 => .BoundGenericEnum 12 [0]
  | 6 => .SILFunction false
  | 7 => .SILFunction true
  | _ => .Other

/-- Stored properties of the declarations of the example module. -/
def exampleStoredProperties : DeclPtr → List VarDecl
  | 10 => [⟨100, 10, 0⟩]
  | 11 => [⟨101, 11, 3⟩]
  | _ => []

/-- Cases of the enumerations of the example module. -/
def exampleAllElements : DeclPtr → List EnumElementDecl
  | 12 => [⟨102, 12, some 0⟩, ⟨103, 12, none⟩]
  | _ => []

/-- The AST of the example module; substitution is the identity. -/
def exampleContext : ASTContext where
  TheNativeObjectType := 20
  TheUnknownObjectType := 21
  TheRawPointerType := 22
  TheIEEE16Type := 23
  TheIEEE32Type := 24
  TheIEEE64Type := 25
  TheIEEE80Type := 26
  TheIEEE128Type := 27
  ThePPC128Type := 28
  getBuiltinIntegerType := fun w => 100 + w
  getWordType := 29
  kindOf := exampleKind
  getCanonicalType := fun t => t
  hasArchetype := fun _ => false
  mayHaveSuperclass := fun t => t == 3
  getStoredProperties := exampleStoredProperties
  getAllElements := exampleAllElements
  classifyAsOptionalType := fun d => if d = 12 then .OTK_Optional else .OTK_None
  getTypeOfMember := fun _ v => v.type
  getTypeOfEnumElement := fun _ _ orig => orig
  substInterfaceGenericArgs := fun _ _ => 6

/-- The example module; every type lowers to itself as a value, and slot `i` of the
tuple is type `i` in the category of the tuple. -/
def exampleModule : SILModule where
  C := exampleContext
  getLoweredType := fun t => ⟨t, .Object⟩
  getLoweredTypeWithPattern := fun _ t => ⟨t, .Object⟩
  getTupleElementType := fun t i => ⟨i, t.category⟩
  isTrivialLowering := fun _ => true
  isAddressOnlyLowering := fun _ => false

/-- Rank of the types of the example module: aggregates above their members. -/
def exampleRank (t : SILType) : Nat :=
  if t.ty = 2 ∨ t.ty = 4 ∨ t.ty = 5 then 1 else 0

/-- The types of the example module that have members. -/
def exampleAggregates : List SILType :=
  [⟨2, .Object⟩, ⟨2, .Address⟩, ⟨4, .Object⟩, ⟨4, .Address⟩, ⟨5, .Object⟩, ⟨5, .Address⟩]

/-! ## A module with nested aggregates

The example module extended by type 8, a structure `P` (declaration 13) whose single
stored field has the tuple type 2, so that `P` contains `(A, B)` which contains `A`. -/

/-- Shapes of the types of the nested module. -/
def nestedKind : CanType → TypeKind
  | 8 => .Struct 13
  | t => exampleKind t

/-- Stored properties of the declarations of the nested module. -/
def nestedStoredProperties : DeclPtr → List VarDecl
  | 13 => [⟨104, 13, 2⟩]
  | d => exampleStoredProperties d

/-- The nested module: the example module with the structure `P` added. -/
def nestedModule : SILModule :=
  { exampleModule with
    C := { exampleContext with
      kindOf := nestedKind
      getStoredProperties := nestedStoredProperties } }

/-- Rank of the types of the nested module: aggregates above their members. -/
def nestedRank (t : SILType) : Nat :=
  if t.ty = 8 then 2 else exampleRank t

/-- The types of the nested module that have members. -/
def nestedAggregates : List SILType :=
  ⟨8, .Object⟩ :: ⟨8, .Address⟩ :: exampleAggregates

/-! ## Lemmas on the loop body -/

theorem foldl_push_eq {α β : Type} (f : α → β) (l : List α) (wl : List β) :
    l.foldl (fun w i => f i :: w) wl = (l.map f).reverse ++ wl := by
  induction l generalizing wl with
  | nil => rfl
  | cons a l ih => simp [ih]

theorem pushTupleElements_eq (M : SILModule) (Ty : SILType) (e : Nat) (wl : List SILType) :
    pushTupleElements M Ty e wl = ((List.range e).map (M.getTupleElementType Ty)).reverse ++ wl := by
  unfold pushTupleElements
  exact foldl_push_eq _ _ _

theorem pushEnumElements_eq (M : SILModule) (Ty : SILType) (E : DeclPtr)
    (hE : getEnumOrBoundGenericEnum M Ty = some E) (elts : List EnumElementDecl)
    (hown : ∀ elt ∈ elts, elt.declContext = E) (wl : List SILType) :
    pushEnumElements M Ty elts wl =
      .ok ((elts.filterMap (fun Elt =>
        if Elt.hasArgumentType then (getEnumElementType M Ty Elt).toOption else none)).reverse
        ++ wl) := by
  induction elts generalizing wl with
  | nil => rfl
  | cons elt rest ih =>
    have hrest : ∀ e ∈ rest, e.declContext = E := fun e he => hown e (List.mem_cons_of_mem _ he)
    have helt : elt.declContext = E := hown elt (List.mem_cons_self _ _)
    unfold pushEnumElements
    by_cases harg : elt.hasArgumentType = true
    · obtain ⟨a, ha⟩ := Option.isSome_iff_exists.mp harg
      have hget : ∃ c, getEnumElementType M Ty elt = .ok c := by
        unfold getEnumElementType
        rw [hE, helt, ha]
        simp
      obtain ⟨c, hc⟩ := hget
      simp [harg, hc, ih hrest, Checked.toOption]
    · simp [harg, ih hrest]

theorem nominal_of_struct (M : SILModule) (Ty : SILType) (S : DeclPtr)
    (hS : getStructOrBoundGenericStruct M Ty = some S) :
    getNominalOrBoundGenericNominal M Ty = some S := by
  unfold getStructOrBoundGenericStruct at hS
  unfold getNominalOrBoundGenericNominal
  split at hS <;> simp_all

theorem pushStoredProperties_eq (M : SILModule) (Ty : SILType) (S : DeclPtr)
    (hS : getStructOrBoundGenericStruct M Ty = some S) (vars : List VarDecl)
    (hown : ∀ v ∈ vars, v.declContext = S) (wl : List SILType) :
    pushStoredProperties M Ty vars wl =
      .ok ((vars.filterMap (fun Var => (getFieldType M Ty Var).toOption)).reverse ++ wl) := by
  induction vars generalizing wl with
  | nil => rfl
  | cons v rest ih =>
    have hrest : ∀ e ∈ rest, e.declContext = S := fun e he => hown e (List.mem_cons_of_mem _ he)
    have hv : v.declContext = S := hown v (List.mem_cons_self _ _)
    have hget : ∃ c, getFieldType M Ty v = .ok c := by
      unfold getFieldType
      rw [nominal_of_struct M Ty S hS, hv]
      simp only [if_true]
      split <;> exact ⟨_, rfl⟩
    obtain ⟨c, hc⟩ := hget
    unfold pushStoredProperties
    simp [hc, ih hrest, Checked.toOption]

/-- One iteration of the loop on a type other than the record pushes `subRecords`. -/
theorem loop_step (M : SILModule) (hwf : WellFormedAST M) (Record Ty : SILType)
    (hne : Ty ≠ Record) (fuel : Nat) (wl : List SILType) :
    aggregateContainsRecordLoop M Record (fuel + 1) (Ty :: wl) =
      aggregateContainsRecordLoop M Record fuel ((subRecords M Ty).reverse ++ wl) := by
  unfold subRecords
  rw [aggregateContainsRecordLoop]
  simp only [if_neg hne]
  cases hT : getAsTupleType M Ty with
  | some e => simp [pushTupleElements_eq]
  | none =>
    cases hE : getEnumOrBoundGenericEnum M Ty with
    | some E =>
      simp [pushEnumElements_eq M Ty E hE _ (hwf.elementOwner E)]
    | none =>
      cases hS : getStructOrBoundGenericStruct M Ty with
      | some S =>
        simp [pushStoredProperties_eq M Ty S hS _ (hwf.propertyOwner S)]
      | none => simp

/-! ## Member edges and the pushed types -/

theorem mem_subRecords_iff (M : SILModule) (t c : SILType) :
    c ∈ subRecords M t ↔ MemberEdge M t c := by
  constructor
  · intro h
    unfold subRecords at h
    cases hT : getAsTupleType M t with
    | some e =>
      rw [hT] at h
      simp only [List.mem_map, List.mem_range] at h
      obtain ⟨i, hi, rfl⟩ := h
      refine MemberEdge.tupleSlot ?_ hi
      unfold getAsTupleType at hT
      split at hT <;> simp_all
    | none =>
      rw [hT] at h
      cases hE : getEnumOrBoundGenericEnum M t with
      | some E =>
        rw [hE] at h
        simp only [List.mem_filterMap] at h
        obtain ⟨elt, helt, hc⟩ := h
        by_cases harg : elt.hasArgumentType = true
        · rw [if_pos harg] at hc
          cases hg : getEnumElementType M t elt with
          | ok c0 =>
            rw [hg] at hc
            simp only [Checked.toOption, Option.some.injEq] at hc
            exact MemberEdge.enumPayload hE helt harg (hc ▸ hg)
          | assertionFailure =>
            rw [hg] at hc
            simp [Checked.toOption] at hc
        · rw [if_neg harg] at hc
          simp at hc
      | none =>
        rw [hE] at h
        cases hS : getStructOrBoundGenericStruct M t with
        | some S =>
          rw [hS] at h
          simp only [List.mem_filterMap] at h
          obtain ⟨v, hv, hc⟩ := h
          cases hg : getFieldType M t v with
          | ok c0 =>
            rw [hg] at hc
            simp only [Checked.toOption, Option.some.injEq] at hc
            exact MemberEdge.structField hS hv (hc ▸ hg)
          | assertionFailure =>
            rw [hg] at hc
            simp [Checked.toOption] at hc
        | none =>
          rw [hS] at h
          simp at h
  · intro h
    cases h with
    | @tupleSlot n i hk hi =>
      have hT : getAsTupleType M t = some n := by
        unfold getAsTupleType
        rw [hk]
      unfold subRecords
      rw [hT]
      exact List.mem_map.mpr ⟨i, List.mem_range.mpr hi, rfl⟩
    | @enumPayload _ E elt hE helt harg hg =>
      have hT : getAsTupleType M t = none := by
        unfold getAsTupleType
        unfold getEnumOrBoundGenericEnum at hE
        split at hE <;> simp_all
      unfold subRecords
      rw [hT, hE]
      refine List.mem_filterMap.mpr ⟨elt, helt, ?_⟩
      rw [if_pos harg, hg]
      rfl
    | @structField _ S v hS hv hg =>
      have hT : getAsTupleType M t = none := by
        unfold getAsTupleType
        unfold getStructOrBoundGenericStruct at hS
        split at hS <;> simp_all
      have hE : getEnumOrBoundGenericEnum M t = none := by
        unfold getEnumOrBoundGenericEnum
        unfold getStructOrBoundGenericStruct at hS
        split at hS <;> simp_all
      unfold subRecords
      rw [hT, hE, hS]
      refine List.mem_filterMap.mpr ⟨v, hv, ?_⟩
      rw [hg]
      rfl

theorem isLeaf_iff_subRecords (M : SILModule) (t : SILType) :
    IsLeaf M t ↔ subRecords M t = [] := by
  unfold IsLeaf
  constructor
  · intro h
    apply List.eq_nil_iff_forall_not_mem.mpr
    intro c hc
    exact h c ((mem_subRecords_iff M t c).mp hc)
  · intro h c hc
    have := (mem_subRecords_iff M t c).mpr hc
    rw [h] at this
    simp at this

/-- Reachability unfolds at its first edge. -/
theorem reachable_iff (M : SILModule) (t Record : SILType) :
    Reachable M t Record ↔ t = Record ∨ ∃ c ∈ subRecords M t, Reachable M c Record := by
  unfold Reachable
  rw [Relation.ReflTransGen.cases_head_iff]
  constructor
  · rintro (h | ⟨c, hc, hr⟩)
    · exact Or.inl h
    · exact Or.inr ⟨c, (mem_subRecords_iff M t c).mpr hc, hr⟩
  · rintro (h | ⟨c, hc, hr⟩)
    · exact Or.inl h
    · exact Or.inr ⟨c, (mem_subRecords_iff M t c).mp hc, hr⟩

/-! ## Termination measure of a finite acyclic graph -/

/-- In a finite acyclic member graph the converse of the edge relation is well founded. -/
theorem wellFounded_of_finiteAcyclic (M : SILModule) (h : FiniteAcyclic M) :
    WellFounded (fun c t => MemberEdge M t c) := by
  have hsrc : Set.Finite {t : SILType | ∃ c, MemberEdge M t c} := by
    refine (h.finite.image Prod.fst).subset ?_
    rintro t ⟨c, hc⟩
    exact ⟨(t, c), hc, rfl⟩
  haveI : Finite {t : SILType // ∃ c, MemberEdge M t c} := hsrc
  let r : {t : SILType // ∃ c, MemberEdge M t c} → {t : SILType // ∃ c, MemberEdge M t c} → Prop :=
    fun a b => Relation.TransGen (MemberEdge M) b.1 a.1
  haveI : IsTrans _ r := ⟨fun a b c hab hbc => Relation.TransGen.trans hbc hab⟩
  haveI : IsIrrefl _ r := ⟨fun a haa => h.acyclic a.1 haa⟩
  have hr : WellFounded r := Finite.wellFounded_of_trans_of_irrefl r
  have hsub : ∀ a : {t : SILType // ∃ c, MemberEdge M t c},
      Acc (fun c t => MemberEdge M t c) a.1 := by
    intro a
    induction a using hr.induction with
    | _ a ih =>
      refine Acc.intro _ (fun c hc => ?_)
      by_cases hsrc : ∃ d, MemberEdge M c d
      · exact ih ⟨c, hsrc⟩ (Relation.TransGen.single hc)
      · exact Acc.intro _ (fun d hd => absurd ⟨d, hd⟩ hsrc)
  refine ⟨fun t => ?_⟩
  by_cases hsrc : ∃ d, MemberEdge M t d
  · exact hsub ⟨t, hsrc⟩
  · exact Acc.intro _ (fun d hd => absurd ⟨d, hd⟩ hsrc)

/-- A cost for every type that exceeds the total cost of the types pushed for it. -/
theorem exists_cost (M : SILModule) (hwf : WellFounded (fun c t => MemberEdge M t c)) :
    ∃ cost : SILType → Nat, ∀ t, ((subRecords M t).map cost).sum < cost t := by
  refine ⟨hwf.fix (fun t rec =>
    ((subRecords M t).attach.map
      (fun c => rec c.1 ((mem_subRecords_iff M t c.1).mp c.2))).sum + 1), fun t => ?_⟩
  conv_rhs => rw [WellFounded.fix_eq]
  rw [List.attach_map_coe]
  exact Nat.lt_succ_self _

/-! ## Correctness of the search for every fair discipline -/

theorem searchWith_correct (M : SILModule)
    (push : SILType → List SILType → List SILType → List SILType) (hpush : FairPush push)
    (cost : SILType → Nat) (hcost : ∀ t, ((subRecords M t).map cost).sum < cost t)
    (Record : SILType) :
    ∀ (fuel : Nat) (wl : List SILType), (wl.map cost).sum ≤ fuel →
      ∃ b, searchWith M push Record fuel wl = some b ∧
        (b = true ↔ ∃ t ∈ wl, Reachable M t Record) := by
  intro fuel
  induction fuel with
  | zero =>
    intro wl hle
    cases wl with
    | nil => exact ⟨false, rfl, by simp⟩
    | cons t wl =>
      exfalso
      have := hcost t
      simp only [List.map_cons, List.sum_cons] at hle
      omega
  | succ n ih =>
    intro wl hle
    cases wl with
    | nil => exact ⟨false, rfl, by simp⟩
    | cons t wl =>
      by_cases hEq : t = Record
      · refine ⟨true, by simp [searchWith, hEq], ?_⟩
        simp only [true_iff]
        exact ⟨t, List.mem_cons_self _ _, hEq ▸ Relation.ReflTransGen.refl⟩
      · have hperm := hpush t (subRecords M t) wl
        have hsum : ((push t (subRecords M t) wl).map cost).sum ≤ n := by
          rw [(hperm.map cost).sum_eq]
          have := hcost t
          simp only [List.map_cons, List.sum_cons] at hle
          simp only [List.map_append, List.sum_append]
          omega
        obtain ⟨b, hb, hiff⟩ := ih _ hsum
        refine ⟨b, by simp [searchWith, hEq, hb], ?_⟩
        rw [hiff]
        constructor
        · rintro ⟨u, hu, hr⟩
          rcases List.mem_append.mp (hperm.mem_iff.mp hu) with hm | hm
          · exact ⟨t, List.mem_cons_self _ _, (reachable_iff M t Record).mpr (Or.inr ⟨u, hm, hr⟩)⟩
          · exact ⟨u, List.mem_cons_of_mem _ hm, hr⟩
        · rintro ⟨u, hu, hr⟩
          rcases List.mem_cons.mp hu with rfl | hm
          · rcases (reachable_iff M u Record).mp hr with h0 | ⟨c, hc, hcr⟩
            · exact absurd h0 hEq
            · exact ⟨c, hperm.mem_iff.mpr (List.mem_append.mpr (Or.inl hc)), hcr⟩
          · exact ⟨u, hperm.mem_iff.mpr (List.mem_append.mpr (Or.inr hm)), hr⟩

/-- On a well-formed AST the loop of the code is the search with the LIFO discipline. -/
theorem loop_eq_searchWith (M : SILModule) (hwf : WellFormedAST M) (Record : SILType) :
    ∀ (fuel : Nat) (wl : List SILType),
      aggregateContainsRecordLoop M Record fuel wl =
        (searchWith M lifoPush Record fuel wl).map Checked.ok := by
  intro fuel
  induction fuel with
  | zero =>
    intro wl
    cases wl <;> rfl
  | succ n ih =>
    intro wl
    cases wl with
    | nil => rfl
    | cons t wl =>
      by_cases hEq : t = Record
      · simp [aggregateContainsRecordLoop, searchWith, hEq]
      · rw [loop_step M hwf Record t hEq, ih]
        simp [searchWith, hEq, lifoPush]

theorem fairPush_lifo : FairPush lifoPush := by
  intro t ms wl
  exact (List.reverse_perm ms).append_right wl

theorem fairPush_fifo : FairPush fifoPush := by
  intro t ms wl
  exact List.perm_append_comm

theorem fairPush_permuted (σ : SILType → List SILType → List SILType)
    (hσ : ∀ t ms, (σ t ms).Perm ms) : FairPush (permutedPush σ) := by
  intro t ms wl
  exact ((List.reverse_perm _).trans (hσ t ms)).append_right wl

/-- More fuel never changes a result already obtained. -/
theorem searchWith_mono (M : SILModule)
    (push : SILType → List SILType → List SILType → List SILType) (Record : SILType) :
    ∀ (fuel : Nat) (wl : List SILType) (b : Bool), searchWith M push Record fuel wl = some b →
      ∀ m, fuel ≤ m → searchWith M push Record m wl = some b := by
  intro fuel
  induction fuel with
  | zero =>
    intro wl b h m _
    cases wl with
    | nil => cases m <;> exact h
    | cons t wl => simp [searchWith] at h
  | succ n ih =>
    intro wl b h m hm
    obtain ⟨k, rfl⟩ : ∃ k, m = k + 1 := ⟨m - 1, by omega⟩
    cases wl with
    | nil => exact h
    | cons t wl =>
      by_cases hEq : t = Record
      · simp [searchWith, hEq] at h ⊢
        exact h
      · simp only [searchWith, if_neg hEq] at h ⊢
        exact ih _ b h k (by omega)

/-- On a well-formed AST and archetype-free arguments the function is the LIFO search. -/
theorem aggregateContainsRecord_eq_searchWith (M : SILModule) (hwf : WellFormedAST M)
    (root target : SILType) (hroot : M.C.hasArchetype root.ty = false)
    (htarget : M.C.hasArchetype target.ty = false) (m : Nat) :
    aggregateContainsRecord M m root target =
      (searchWith M lifoPush target m [root]).map Checked.ok := by
  unfold aggregateContainsRecord
  simp [hroot, htarget, loop_eq_searchWith M hwf]

/-- In a finite acyclic graph one result and one amount of fuel serve every fair
discipline. -/
theorem search_all (M : SILModule) (hfin : FiniteAcyclic M) (root target : SILType) :
    ∃ (b : Bool) (n : Nat), (b = true ↔ Reachable M root target) ∧
      ∀ push, FairPush push → ∀ m, n ≤ m → searchWith M push target m [root] = some b := by
  obtain ⟨cost, hcost⟩ := exists_cost M (wellFounded_of_finiteAcyclic M hfin)
  obtain ⟨b, -, hb⟩ := searchWith_correct M lifoPush fairPush_lifo cost hcost target
    (cost root) [root] (by simp)
  refine ⟨b, cost root, ?_, ?_⟩
  · rw [hb]
    simp
  · intro push hpush m hm
    obtain ⟨b', hs, hb'⟩ := searchWith_correct M push hpush cost hcost target
      (cost root) [root] (by simp)
    have hbb : b' = b := by
      apply Bool.eq_iff_iff.mpr
      rw [hb, hb']
    rw [← hbb]
    exact searchWith_mono M push target _ _ _ hs m hm

theorem memberEdge_iff_storageEdge (M : SILModule) (t c : SILType) :
    (StorageEdge M t c ∧ getClassOrBoundGenericClass M t = none) ↔ MemberEdge M t c := by
  constructor
  · rintro ⟨h, hnc⟩
    cases h with
    | member h => exact h
    | classField hK _ _ => rw [hK] at hnc; simp at hnc
  · intro h
    refine ⟨StorageEdge.member h, ?_⟩
    unfold getClassOrBoundGenericClass
    cases h with
    | tupleSlot hk _ => rw [hk]
    | enumPayload hE _ _ _ =>
      unfold getEnumOrBoundGenericEnum at hE
      split at hE <;> simp_all
    | structField hS _ _ =>
      unfold getStructOrBoundGenericStruct at hS
      split at hS <;> simp_all

theorem reachableAvoidingClasses_iff (M : SILModule) (t c : SILType) :
    ReachableAvoidingClasses M t c ↔ Reachable M t c := by
  unfold ReachableAvoidingClasses Reachable
  have : (fun t c => StorageEdge M t c ∧ getClassOrBoundGenericClass M t = none) =
      MemberEdge M := by
    funext t c
    exact propext (memberEdge_iff_storageEdge M t c)
  rw [this]

/-- A class-shaped type has no member edges. -/
theorem isLeaf_of_class (M : SILModule) (t : SILType)
    (h : (getClassOrBoundGenericClass M t).isSome = true) : IsLeaf M t := by
  intro c hc
  have := ((memberEdge_iff_storageEdge M t c).mpr hc).2
  rw [this] at h
  simp at h

/-- A rank that decreases along the pushed types, on finitely many aggregates, makes
the member graph finite and acyclic. -/
theorem finiteAcyclic_of_rank (M : SILModule) (nodes : List SILType) (rank : SILType → Nat)
    (h : ∀ t c, c ∈ subRecords M t → t ∈ nodes ∧ rank c < rank t) : FiniteAcyclic M := by
  constructor
  · refine (List.finite_toSet
      (nodes.flatMap (fun t => (subRecords M t).map (fun c => (t, c))))).subset ?_
    rintro ⟨t, c⟩ hp
    have hc : c ∈ subRecords M t := (mem_subRecords_iff M t c).mpr hp
    simp only [Set.mem_setOf_eq, List.mem_flatMap, List.mem_map, Prod.mk.injEq]
    exact ⟨t, (h t c hc).1, c, hc, rfl, rfl⟩
  · intro t ht
    have key : ∀ a b, Relation.TransGen (MemberEdge M) a b → rank b < rank a := by
      intro a b hab
      induction hab with
      | single e => exact (h _ _ ((mem_subRecords_iff M _ _).mpr e)).2
      | tail _ e ih => exact lt_trans (h _ _ ((mem_subRecords_iff M _ _).mpr e)).2 ih
    exact lt_irrefl _ (key t t ht)

theorem exampleModule_wellFormed : WellFormedAST exampleModule := by
  constructor
  · intro E elt h
    change elt ∈ exampleAllElements E at h
    unfold exampleAllElements at h
    split at h
    · simp at h
      rcases h with rfl | rfl <;> rfl
    · simp at h
  · intro S v h
    change v ∈ exampleStoredProperties S at h
    unfold exampleStoredProperties at h
    split at h
    · simp at h
      subst h
      rfl
    · simp at h
      subst h
      rfl
    · simp at h

theorem exampleModule_leaf (ty : CanType) (cat : SILValueCategory)
    (h2 : ty ≠ 2) (h4 : ty ≠ 4) (h5 : ty ≠ 5) : subRecords exampleModule ⟨ty, cat⟩ = [] := by
  rcases ty with _ | _ | _ | _ | _ | _ | _ | _ | n
  all_goals first | rfl | exact absurd rfl h2 | exact absurd rfl h4 | exact absurd rfl h5

theorem exampleModule_subRecords (t c : SILType) (h : c ∈ subRecords exampleModule t) :
    t ∈ exampleAggregates ∧ exampleRank c < exampleRank t := by
  obtain ⟨ty, cat⟩ := t
  by_cases h2 : ty = 2
  · subst h2
    cases cat <;> simp [subRecords, getAsTupleType, exampleModule, exampleContext, exampleKind,
      List.range, List.range.loop] at h <;> rcases h with rfl | rfl <;> decide
  · by_cases h4 : ty = 4
    · subst h4
      cases cat
      · have hc : c ∈ [(⟨3, .Object⟩ : SILType)] := h
        simp at hc
        subst hc
        decide
      · have hc : c ∈ [(⟨3, .Address⟩ : SILType)] := h
        simp at hc
        subst hc
        decide
    · by_cases h5 : ty = 5
      · subst h5
        cases cat <;> simp [subRecords, getAsTupleType, getEnumOrBoundGenericEnum,
          getEnumElementType, exampleModule, exampleContext, exampleKind, exampleAllElements,
          EnumElementDecl.hasArgumentType, Checked.toOption] at h <;> subst h <;> decide
      · rw [exampleModule_leaf ty cat h2 h4 h5] at h
        simp at h

theorem exampleModule_finiteAcyclic : FiniteAcyclic exampleModule :=
  finiteAcyclic_of_rank exampleModule exampleAggregates exampleRank exampleModule_subRecords

theorem contains_of_reachable (M : SILModule) (hwf : WellFormedAST M) (hfin : FiniteAcyclic M)
    (root target : SILType) (hroot : M.C.hasArchetype root.ty = false)
    (htarget : M.C.hasArchetype target.ty = false) (h : Reachable M root target) :
    ∃ n, ∀ m, n ≤ m → aggregateContainsRecord M m root target = some (.ok true) := by
  obtain ⟨b, n, hb, hs⟩ := search_all M hfin root target
  have hbt : b = true := hb.mpr h
  subst hbt
  refine ⟨n, fun m hm => ?_⟩
  rw [aggregateContainsRecord_eq_searchWith M hwf root target hroot htarget,
    hs lifoPush fairPush_lifo m hm]
  rfl

theorem not_contains_of_not_reachable (M : SILModule) (hwf : WellFormedAST M)
    (hfin : FiniteAcyclic M) (root target : SILType) (hroot : M.C.hasArchetype root.ty = false)
    (htarget : M.C.hasArchetype target.ty = false) (h : ¬ Reachable M root target) :
    ∃ n, ∀ m, n ≤ m → aggregateContainsRecord M m root target = some (.ok false) := by
  obtain ⟨b, n, hb, hs⟩ := search_all M hfin root target
  have hbf : b = false := by
    cases b with
    | false => rfl
    | true => exact absurd (hb.mp rfl) h
  subst hbf
  refine ⟨n, fun m hm => ?_⟩
  rw [aggregateContainsRecord_eq_searchWith M hwf root target hroot htarget,
    hs lifoPush fairPush_lifo m hm]
  rfl

theorem exampleModule_field_not_reachable :
    ¬ ReachableAvoidingClasses exampleModule ⟨4, .Object⟩ ⟨0, .Address⟩ := by
  rw [reachableAvoidingClasses_iff, reachable_iff]
  rintro (h | ⟨c, hc, hr⟩)
  · exact absurd h (by decide)
  · have hc3 : c ∈ [(⟨3, .Object⟩ : SILType)] := hc
    simp only [List.mem_singleton] at hc3
    subst hc3
    rw [reachable_iff] at hr
    rcases hr with h | ⟨d, hd, _⟩
    · exact absurd h (by decide)
    · have hd0 : d ∈ ([] : List SILType) := hd
      simp at hd0

/-- Popping a leaf other than the record leaves the rest of the worklist. -/
theorem loop_step_leaf (M : SILModule) (hwf : WellFormedAST M) (Record Ty : SILType)
    (hne : Ty ≠ Record) (hleaf : IsLeaf M Ty) (fuel : Nat) (wl : List SILType) :
    aggregateContainsRecordLoop M Record (fuel + 1) (Ty :: wl) =
      aggregateContainsRecordLoop M Record fuel wl := by
  rw [loop_step M hwf Record Ty hne, (isLeaf_iff_subRecords M Ty).mp hleaf]
  rfl

/-- Popping the record itself ends the loop with true. -/
theorem loop_step_found (M : SILModule) (Record : SILType) (fuel : Nat) (wl : List SILType) :
    aggregateContainsRecordLoop M Record (fuel + 1) (Record :: wl) = some (.ok true) := by
  simp [aggregateContainsRecordLoop]

theorem subRecords_pair (M : SILModule) (T A B : SILType)
    (hT : M.C.kindOf T.ty = .Tuple 2) (hA : M.getTupleElementType T 0 = A)
    (hB : M.getTupleElementType T 1 = B) : subRecords M T = [A, B] := by
  have hTT : getAsTupleType M T = some 2 := by
    unfold getAsTupleType
    rw [hT]
  unfold subRecords
  rw [hTT]
  show [M.getTupleElementType T 0, M.getTupleElementType T 1] = [A, B]
  rw [hA, hB]

/-! ## The loop without the invariant of the AST -/

theorem pushEnumElements_ok (M : SILModule) (Ty : SILType) (elts : List EnumElementDecl) :
    ∀ wl wl1, pushEnumElements M Ty elts wl = .ok wl1 →
      wl1 = (elts.filterMap (fun Elt =>
        if Elt.hasArgumentType then (getEnumElementType M Ty Elt).toOption else none)).reverse
        ++ wl := by
  induction elts with
  | nil =>
    intro wl wl1 h
    simp only [pushEnumElements, Checked.ok.injEq] at h
    simp [h]
  | cons elt rest ih =>
    intro wl wl1 h
    unfold pushEnumElements at h
    by_cases harg : elt.hasArgumentType = true
    · rw [if_pos harg] at h
      cases hg : getEnumElementType M Ty elt with
      | ok c =>
        rw [hg] at h
        simp [harg, hg, Checked.toOption, ih _ _ h]
      | assertionFailure =>
        rw [hg] at h
        simp at h
    · rw [if_neg harg] at h
      simp [harg, ih _ _ h]

theorem pushStoredProperties_ok (M : SILModule) (Ty : SILType) (vars : List VarDecl) :
    ∀ wl wl1, pushStoredProperties M Ty vars wl = .ok wl1 →
      wl1 = (vars.filterMap (fun Var => (getFieldType M Ty Var).toOption)).reverse ++ wl := by
  induction vars with
  | nil =>
    intro wl wl1 h
    simp only [pushStoredProperties, Checked.ok.injEq] at h
    simp [h]
  | cons v rest ih =>
    intro wl wl1 h
    unfold pushStoredProperties at h
    cases hg : getFieldType M Ty v with
    | ok c =>
      rw [hg] at h
      simp [hg, Checked.toOption, ih _ _ h]
    | assertionFailure =>
      rw [hg] at h
      simp at h

/-- One iteration on a type other than the record either stops at a failed assertion
or continues with the pushed `subRecords`. -/
theorem loop_step_general (M : SILModule) (Record Ty : SILType) (hne : Ty ≠ Record)
    (fuel : Nat) (wl : List SILType) :
    aggregateContainsRecordLoop M Record (fuel + 1) (Ty :: wl) = some .assertionFailure ∨
    aggregateContainsRecordLoop M Record (fuel + 1) (Ty :: wl) =
      aggregateContainsRecordLoop M Record fuel ((subRecords M Ty).reverse ++ wl) := by
  unfold subRecords
  rw [aggregateContainsRecordLoop]
  simp only [if_neg hne]
  cases hT : getAsTupleType M Ty with
  | some e => right; simp [pushTupleElements_eq]
  | none =>
    cases hE : getEnumOrBoundGenericEnum M Ty with
    | some E =>
      cases hp : pushEnumElements M Ty (M.C.getAllElements E) wl with
      | ok wl1 =>
        right
        simp only [hp]
        rw [← pushEnumElements_ok M Ty _ _ _ hp]
      | assertionFailure =>
        left
        simp only [hp]
    | none =>
      cases hS : getStructOrBoundGenericStruct M Ty with
      | some S =>
        cases hp : pushStoredProperties M Ty (M.C.getStoredProperties S) wl with
        | ok wl1 =>
          right
          simp only [hp]
          rw [← pushStoredProperties_ok M Ty _ _ _ hp]
        | assertionFailure =>
          left
          simp only [hp]
      | none => right; simp

/-- A true result is always backed by a path from a type of the worklist. -/
theorem loop_sound (M : SILModule) (Record : SILType) :
    ∀ (fuel : Nat) (wl : List SILType),
      aggregateContainsRecordLoop M Record fuel wl = some (.ok true) →
      ∃ t ∈ wl, Reachable M t Record := by
  intro fuel
  induction fuel with
  | zero =>
    intro wl h
    cases wl <;> simp [aggregateContainsRecordLoop] at h
  | succ n ih =>
    intro wl h
    cases wl with
    | nil => simp [aggregateContainsRecordLoop] at h
    | cons t wl =>
      by_cases hEq : t = Record
      · exact ⟨t, List.mem_cons_self _ _, hEq ▸ Relation.ReflTransGen.refl⟩
      · rcases loop_step_general M Record t hEq n wl with hs | hs
        · rw [hs] at h
          simp at h
        · rw [hs] at h
          obtain ⟨u, hu, hr⟩ := ih _ h
          rcases List.mem_append.mp hu with hm | hm
          · exact ⟨t, List.mem_cons_self _ _,
              (reachable_iff M t Record).mpr (Or.inr ⟨u, List.mem_reverse.mp hm, hr⟩)⟩
          · exact ⟨u, List.mem_cons_of_mem _ hm, hr⟩

/-- With fuel for the total cost of the worklist the loop ends, on any AST. -/
theorem loop_ends (M : SILModule) (cost : SILType → Nat)
    (hcost : ∀ t, ((subRecords M t).map cost).sum < cost t) (Record : SILType) :
    ∀ (fuel : Nat) (wl : List SILType), (wl.map cost).sum ≤ fuel →
      ∃ r, aggregateContainsRecordLoop M Record fuel wl = some r := by
  intro fuel
  induction fuel with
  | zero =>
    intro wl hle
    cases wl with
    | nil => exact ⟨_, rfl⟩
    | cons t wl =>
      exfalso
      have := hcost t
      simp only [List.map_cons, List.sum_cons] at hle
      omega
  | succ n ih =>
    intro wl hle
    cases wl with
    | nil => exact ⟨_, rfl⟩
    | cons t wl =>
      by_cases hEq : t = Record
      · subst hEq
        exact ⟨_, loop_step_found M t n wl⟩
      · rcases loop_step_general M Record t hEq n wl with hs | hs
        · exact ⟨_, hs⟩
        · rw [hs]
          apply ih
          have := hcost t
          simp only [List.map_cons, List.sum_cons] at hle
          simp only [List.map_append, List.sum_append, List.map_reverse, List.sum_reverse]
          omega

/-! ## Storage categories along member edges -/

theorem getEnumElementType_ok_category (M : SILModule) (Ty c : SILType) (elt : EnumElementDecl)
    (h : getEnumElementType M Ty elt = .ok c) : c.category = Ty.category := by
  unfold getEnumElementType at h
  split at h
  · split at h
    · simp at h
    · simp only [Checked.ok.injEq] at h
      rw [← h]
  · simp at h

theorem getFieldType_struct_category (M : SILModule) (Ty c : SILType) (S : DeclPtr)
    (v : VarDecl) (hS : getStructOrBoundGenericStruct M Ty = some S)
    (h : getFieldType M Ty v = .ok c) : c.category = Ty.category := by
  have hcls : getClassOrBoundGenericClass M Ty = none := by
    unfold getClassOrBoundGenericClass
    unfold getStructOrBoundGenericStruct at hS
    split at hS <;> simp_all
  unfold getFieldType at h
  rw [hcls] at h
  obtain ⟨ty, cat⟩ := Ty
  split at h
  · cases cat <;>
      simp [SILType.isAddress, SILType.getAddressType, SILType.getObjectType] at h <;>
      rw [← h]
  · simp at h

theorem memberEdge_category (M : SILModule)
    (htuple : ∀ t i, (M.getTupleElementType t i).category = t.category) (t c : SILType)
    (h : MemberEdge M t c) : c.category = t.category := by
  cases h with
  | tupleSlot _ _ => exact htuple _ _
  | enumPayload _ _ _ hg => exact getEnumElementType_ok_category M t c _ hg
  | structField hS _ hg => exact getFieldType_struct_category M t c _ _ hS hg

theorem reachable_category (M : SILModule)
    (htuple : ∀ t i, (M.getTupleElementType t i).category = t.category) (a b : SILType)
    (h : Reachable M a b) : b.category = a.category := by
  induction h with
  | refl => rfl
  | tail _ e ih => rw [memberEdge_category M htuple _ _ e, ih]

/-- One recorded pop on a type other than the record is followed either by nothing (a
failed assertion) or by the pops of the worklist extended with `subRecords`. -/
theorem pops_step_general (M : SILModule) (Record Ty : SILType) (hne : Ty ≠ Record)
    (fuel : Nat) (wl : List SILType) :
    aggregateContainsRecordPops M Record (fuel + 1) (Ty :: wl) = [Ty] ∨
    aggregateContainsRecordPops M Record (fuel + 1) (Ty :: wl) =
      Ty :: aggregateContainsRecordPops M Record fuel ((subRecords M Ty).reverse ++ wl) := by
  unfold subRecords
  rw [aggregateContainsRecordPops]
  simp only [if_neg hne]
  cases hT : getAsTupleType M Ty with
  | some e => right; simp [pushTupleElements_eq]
  | none =>
    cases hE : getEnumOrBoundGenericEnum M Ty with
    | some E =>
      cases hp : pushEnumElements M Ty (M.C.getAllElements E) wl with
      | ok wl1 =>
        right
        simp only [hp]
        rw [← pushEnumElements_ok M Ty _ _ _ hp]
      | assertionFailure =>
        left
        simp only [hp]
    | none =>
      cases hS : getStructOrBoundGenericStruct M Ty with
      | some S =>
        cases hp : pushStoredProperties M Ty (M.C.getStoredProperties S) wl with
        | ok wl1 =>
          right
          simp only [hp]
          rw [← pushStoredProperties_ok M Ty _ _ _ hp]
        | assertionFailure =>
          left
          simp only [hp]
      | none => right; simp

/-- Every popped type is reachable from a type of the initial worklist. -/
theorem pops_reachable (M : SILModule) (Record : SILType) :
    ∀ (fuel : Nat) (wl : List SILType), ∀ t ∈ aggregateContainsRecordPops M Record fuel wl,
      ∃ r ∈ wl, Reachable M r t := by
  intro fuel
  induction fuel with
  | zero =>
    intro wl t ht
    cases wl <;> simp [aggregateContainsRecordPops] at ht
  | succ n ih =>
    intro wl t ht
    cases wl with
    | nil => simp [aggregateContainsRecordPops] at ht
    | cons u wl =>
      have hself : ∃ r ∈ u :: wl, Reachable M r u :=
        ⟨u, List.mem_cons_self _ _, Relation.ReflTransGen.refl⟩
      by_cases hEq : u = Record
      · simp only [aggregateContainsRecordPops, if_pos hEq, List.mem_singleton] at ht
        exact ht ▸ hself
      · rcases pops_step_general M Record u hEq n wl with hs | hs
        · rw [hs, List.mem_singleton] at ht
          exact ht ▸ hself
        · rw [hs] at ht
          rcases List.mem_cons.mp ht with h0 | h1
          · exact h0 ▸ hself
          · obtain ⟨r, hr, hrt⟩ := ih _ t h1
            rcases List.mem_append.mp hr with hm | hm
            · have hedge : MemberEdge M u r :=
                (mem_subRecords_iff M u r).mp (List.mem_reverse.mp hm)
              exact ⟨u, List.mem_cons_self _ _, Relation.ReflTransGen.head hedge hrt⟩
            · exact ⟨r, List.mem_cons_of_mem _ hm, hrt⟩

/-- On a well-formed AST the loop never stops at a failed assertion. -/
theorem loop_no_assertion (M : SILModule) (hwf : WellFormedAST M) (Record : SILType)
    (fuel : Nat) (wl : List SILType) :
    aggregateContainsRecordLoop M Record fuel wl ≠ some .assertionFailure := by
  rw [loop_eq_searchWith M hwf]
  cases searchWith M lifoPush Record fuel wl <;> simp

/-- A true result of the function is backed by a path from the root to the record. -/
theorem reachable_of_contains (M : SILModule) (root target : SILType) (fuel : Nat)
    (h : aggregateContainsRecord M fuel root target = some (.ok true)) :
    Reachable M root target := by
  unfold aggregateContainsRecord at h
  split at h
  · simp at h
  · split at h
    · simp at h
    · obtain ⟨t, ht, hr⟩ := loop_sound M target fuel [root] h
      rw [List.mem_singleton] at ht
      exact ht ▸ hr

theorem pushEnumElements_no_payload (M : SILModule) (Ty : SILType)
    (elts : List EnumElementDecl) (h : ∀ elt ∈ elts, elt.hasArgumentType = false)
    (wl : List SILType) : pushEnumElements M Ty elts wl = .ok wl := by
  induction elts with
  | nil => rfl
  | cons elt rest ih =>
    unfold pushEnumElements
    rw [h elt (List.mem_cons_self _ _)]
    simp only [Bool.false_eq_true, if_false]
    exact ih (fun e he => h e (List.mem_cons_of_mem _ he))

/-- Popping a type without members, other than the record, pushes nothing, on any AST. -/
theorem loop_step_noMembers (M : SILModule) (Record Ty : SILType) (hne : Ty ≠ Record)
    (h : HasNoMembers M Ty) (fuel : Nat) (wl : List SILType) :
    aggregateContainsRecordLoop M Record (fuel + 1) (Ty :: wl) =
      aggregateContainsRecordLoop M Record fuel wl := by
  rw [aggregateContainsRecordLoop]
  simp only [if_neg hne]
  unfold HasNoMembers at h
  unfold getAsTupleType getEnumOrBoundGenericEnum getStructOrBoundGenericStruct
  cases hk : M.C.kindOf Ty.ty <;> rw [hk] at h <;> simp only at h ⊢
  · subst h
    rfl
  · rw [pushEnumElements_no_payload M Ty _ h]
  · rw [pushEnumElements_no_payload M Ty _ h]
  · rw [h]
    rfl
  · rw [h]
    rfl

/-! ## The nested module is well formed, finite and acyclic -/

theorem nestedModule_wellFormed : WellFormedAST nestedModule := by
  constructor
  · intro E elt h
    exact exampleModule_wellFormed.elementOwner E elt h
  · intro S v h
    change v ∈ nestedStoredProperties S at h
    unfold nestedStoredProperties at h
    split at h
    · simp at h
      subst h
      rfl
    · exact exampleModule_wellFormed.propertyOwner _ v h

theorem nestedModule_leaf (ty : CanType) (cat : SILValueCategory)
    (h2 : ty ≠ 2) (h4 : ty ≠ 4) (h5 : ty ≠ 5) (h8 : ty ≠ 8) :
    subRecords nestedModule ⟨ty, cat⟩ = [] := by
  rcases ty with _ | _ | _ | _ | _ | _ | _ | _ | _ | n
  all_goals first | rfl | exact absurd rfl h2 | exact absurd rfl h4 | exact absurd rfl h5 |
    exact absurd rfl h8

theorem nestedModule_subRecords (t c : SILType) (h : c ∈ subRecords nestedModule t) :
    t ∈ nestedAggregates ∧ nestedRank c < nestedRank t := by
  obtain ⟨ty, cat⟩ := t
  by_cases h2 : ty = 2
  · subst h2
    have hc : c ∈ [(⟨0, cat⟩ : SILType), ⟨1, cat⟩] := h
    cases cat <;> simp at hc <;> rcases hc with rfl | rfl <;> decide
  · by_cases h4 : ty = 4
    · subst h4
      cases cat
      · have hc : c ∈ [(⟨3, .Object⟩ : SILType)] := h
        simp at hc
        subst hc
        decide
      · have hc : c ∈ [(⟨3, .Address⟩ : SILType)] := h
        simp at hc
        subst hc
        decide
    · by_cases h5 : ty = 5
      · subst h5
        have hc : c ∈ [(⟨0, cat⟩ : SILType)] := h
        cases cat <;> simp at hc <;> subst hc <;> decide
      · by_cases h8 : ty = 8
        · subst h8
          cases cat
          · have hc : c ∈ [(⟨2, .Object⟩ : SILType)] := h
            simp at hc
            subst hc
            decide
          · have hc : c ∈ [(⟨2, .Address⟩ : SILType)] := h
            simp at hc
            subst hc
            decide
        · rw [nestedModule_leaf ty cat h2 h4 h5 h8] at h
          simp at h

theorem nestedModule_finiteAcyclic : FiniteAcyclic nestedModule :=
  finiteAcyclic_of_rank nestedModule nestedAggregates nestedRank nestedModule_subRecords

/-! ## The claims -/

/-- C1: over a well-formed AST whose member graph is finite and acyclic, and for
archetype-free root and target, `aggregateContainsRecord` returns a boolean once the
fuel suffices; it is true exactly when the target is reachable from the root by zero or
more member edges (tuple slots, projected payloads of payload-carrying cases, projected
stored fields of a structure, nothing else), and false exactly when no such path exists. -/
theorem aggregateContainsRecord_iff_reachable (M : SILModule) (hwf : WellFormedAST M)
    (hfin : FiniteAcyclic M) (root target : SILType)
    (hroot : M.C.hasArchetype root.ty = false) (htarget : M.C.hasArchetype target.ty = false) :
    ∃ b : Bool,
      (∃ n, ∀ m, n ≤ m → aggregateContainsRecord M m root target = some (.ok b)) ∧
      (b = true ↔ Reachable M root target) ∧ (b = false ↔ ¬ Reachable M root target) := by
  by_cases h : Reachable M root target
  · exact ⟨true, contains_of_reachable M hwf hfin root target hroot htarget h, by simp [h],
      by simp [h]⟩
  · exact ⟨false, not_contains_of_not_reachable M hwf hfin root target hroot htarget h,
      by simp [h], by simp [h]⟩

/-- Witness of C1 on the example module, from the structure `S` to its class-typed
field `K`. -/
theorem aggregateContainsRecord_iff_reachable_witness :
    WellFormedAST exampleModule ∧ FiniteAcyclic exampleModule ∧
    exampleModule.C.hasArchetype 4 = false ∧ exampleModule.C.hasArchetype 3 = false ∧
    aggregateContainsRecord exampleModule 2 ⟨4, .Object⟩ ⟨3, .Object⟩ = some (.ok true) ∧
    ∃ b : Bool,
      (∃ n, ∀ m, n ≤ m →
        aggregateContainsRecord exampleModule m ⟨4, .Object⟩ ⟨3, .Object⟩ = some (.ok b)) ∧
      (b = true ↔ Reachable exampleModule ⟨4, .Object⟩ ⟨3, .Object⟩) ∧
      (b = false ↔ ¬ Reachable exampleModule ⟨4, .Object⟩ ⟨3, .Object⟩) :=
  ⟨exampleModule_wellFormed, exampleModule_finiteAcyclic, rfl, rfl, by decide,
    aggregateContainsRecord_iff_reachable exampleModule exampleModule_wellFormed
      exampleModule_finiteAcyclic ⟨4, .Object⟩ ⟨3, .Object⟩ rfl rfl⟩

/-- C2: over a well-formed AST whose member graph is finite and acyclic, one boolean is
returned by the code (a LIFO stack), by the search with a FIFO queue, by the search that
pushes the members of each popped type in any permuted order, and by the search with any
discipline that keeps the worklist a permutation of the pending types. -/
theorem aggregateContainsRecord_order_independent (M : SILModule) (hwf : WellFormedAST M)
    (hfin : FiniteAcyclic M) (root target : SILType)
    (hroot : M.C.hasArchetype root.ty = false) (htarget : M.C.hasArchetype target.ty = false) :
    ∃ (b : Bool) (n : Nat), ∀ m, n ≤ m →
      aggregateContainsRecord M m root target = some (.ok b) ∧
      searchWith M lifoPush target m [root] = some b ∧
      searchWith M fifoPush target m [root] = some b ∧
      (∀ σ : SILType → List SILType → List SILType, (∀ t ms, (σ t ms).Perm ms) →
        searchWith M (permutedPush σ) target m [root] = some b) ∧
      (∀ push, FairPush push → searchWith M push target m [root] = some b) := by
  obtain ⟨b, n, -, hs⟩ := search_all M hfin root target
  refine ⟨b, n, fun m hm => ⟨?_, hs _ fairPush_lifo m hm, hs _ fairPush_fifo m hm,
    fun σ hσ => hs _ (fairPush_permuted σ hσ) m hm, fun push hp => hs push hp m hm⟩⟩
  rw [aggregateContainsRecord_eq_searchWith M hwf root target hroot htarget,
    hs lifoPush fairPush_lifo m hm]
  rfl

/-- Witness of C2 on the example module, from the tuple `(A, B)` to its slot `A`; the
FIFO search finds it one pop earlier than the LIFO search of the code. -/
theorem aggregateContainsRecord_order_independent_witness :
    WellFormedAST exampleModule ∧ FiniteAcyclic exampleModule ∧
    exampleModule.C.hasArchetype 2 = false ∧ exampleModule.C.hasArchetype 0 = false ∧
    searchWith exampleModule fifoPush ⟨0, .Object⟩ 2 [⟨2, .Object⟩] = some true ∧
    searchWith exampleModule lifoPush ⟨0, .Object⟩ 2 [⟨2, .Object⟩] = none ∧
    searchWith exampleModule lifoPush ⟨0, .Object⟩ 3 [⟨2, .Object⟩] = some true ∧
    ∃ (b : Bool) (n : Nat), ∀ m, n ≤ m →
      aggregateContainsRecord exampleModule m ⟨2, .Object⟩ ⟨0, .Object⟩ = some (.ok b) ∧
      searchWith exampleModule lifoPush ⟨0, .Object⟩ m [⟨2, .Object⟩] = some b ∧
      searchWith exampleModule fifoPush ⟨0, .Object⟩ m [⟨2, .Object⟩] = some b ∧
      (∀ σ : SILType → List SILType → List SILType, (∀ t ms, (σ t ms).Perm ms) →
        searchWith exampleModule (permutedPush σ) ⟨0, .Object⟩ m [⟨2, .Object⟩] = some b) ∧
      (∀ push, FairPush push →
        searchWith exampleModule push ⟨0, .Object⟩ m [⟨2, .Object⟩] = some b) :=
  ⟨exampleModule_wellFormed, exampleModule_finiteAcyclic, rfl, rfl, by decide, by decide,
    by decide,
    aggregateContainsRecord_order_independent exampleModule exampleModule_wellFormed
      exampleModule_finiteAcyclic ⟨2, .Object⟩ ⟨0, .Object⟩ rfl rfl⟩

/-- C3: in a well-formed AST with a finite acyclic member graph, let `S` be a structure
with a stored field whose projected type `K'` is class-shaped.  Then `K'` has no member
edges, the search from `S` for `K'` returns true, and the search from `S` returns false
for every type `F` that no path avoiding class-shaped types reaches from `S`, in
particular for the types reached only through a stored field of the class. -/
theorem aggregateContainsRecord_indirection_boundary (M : SILModule) (hwf : WellFormedAST M)
    (hfin : FiniteAcyclic M) (S K' : SILType) (Sd : DeclPtr) (var : VarDecl)
    (hS : getStructOrBoundGenericStruct M S = some Sd)
    (hvar : var ∈ M.C.getStoredProperties Sd) (hK : getFieldType M S var = .ok K')
    (hclass : (getClassOrBoundGenericClass M K').isSome = true)
    (hSa : M.C.hasArchetype S.ty = false) (hKa : M.C.hasArchetype K'.ty = false) :
    IsLeaf M K' ∧
    (∃ n, ∀ m, n ≤ m → aggregateContainsRecord M m S K' = some (.ok true)) ∧
    ∀ F : SILType, M.C.hasArchetype F.ty = false → ¬ ReachableAvoidingClasses M S F →
      F ≠ S ∧ F ≠ K' ∧
      ∃ n, ∀ m, n ≤ m → aggregateContainsRecord M m S F = some (.ok false) := by
  have hedge : MemberEdge M S K' := MemberEdge.structField hS hvar hK
  refine ⟨isLeaf_of_class M K' hclass, ?_, ?_⟩
  · exact contains_of_reachable M hwf hfin S K' hSa hKa (Relation.ReflTransGen.single hedge)
  · intro F hFa hF
    rw [reachableAvoidingClasses_iff] at hF
    refine ⟨?_, ?_, not_contains_of_not_reachable M hwf hfin S F hSa hFa hF⟩
    · rintro rfl
      exact hF Relation.ReflTransGen.refl
    · rintro rfl
      exact hF (Relation.ReflTransGen.single hedge)

/-- Witness of C3 on the example module: the structure `S` holds the class `K`, whose
own stored field has the projected type `A` in the Address category; the field of the
class is a storage edge out of `K`, and the search from `S` does not find it. -/
theorem aggregateContainsRecord_indirection_boundary_witness :
    getStructOrBoundGenericStruct exampleModule ⟨4, .Object⟩ = some 11 ∧
    (⟨101, 11, 3⟩ : VarDecl) ∈ exampleModule.C.getStoredProperties 11 ∧
    getFieldType exampleModule ⟨4, .Object⟩ ⟨101, 11, 3⟩ = .ok ⟨3, .Object⟩ ∧
    (getClassOrBoundGenericClass exampleModule ⟨3, .Object⟩).isSome = true ∧
    getFieldType exampleModule ⟨3, .Object⟩ ⟨100, 10, 0⟩ = .ok ⟨0, .Address⟩ ∧
    ¬ ReachableAvoidingClasses exampleModule ⟨4, .Object⟩ ⟨0, .Address⟩ ∧
    aggregateContainsRecord exampleModule 2 ⟨4, .Object⟩ ⟨3, .Object⟩ = some (.ok true) ∧
    aggregateContainsRecord exampleModule 2 ⟨4, .Object⟩ ⟨0, .Address⟩ = some (.ok false) ∧
    (∃ n, ∀ m, n ≤ m →
      aggregateContainsRecord exampleModule m ⟨4, .Object⟩ ⟨3, .Object⟩ = some (.ok true)) ∧
    (∃ n, ∀ m, n ≤ m →
      aggregateContainsRecord exampleModule m ⟨4, .Object⟩ ⟨0, .Address⟩ = some (.ok false)) :=
  have h := aggregateContainsRecord_indirection_boundary exampleModule exampleModule_wellFormed
    exampleModule_finiteAcyclic ⟨4, .Object⟩ ⟨3, .Object⟩ 11 ⟨101, 11, 3⟩ rfl
    (by decide) rfl rfl rfl rfl
  ⟨rfl, by decide, rfl, rfl, rfl, exampleModule_field_not_reachable, by decide, by decide,
    h.2.1, (h.2.2 ⟨0, .Address⟩ rfl exampleModule_field_not_reachable).2.2⟩

/-- C4: in a well-formed AST, for a tuple `T = (A, B)` whose slots `A` and `B` are
distinct leaves and archetype-free, the search from `T` returns true for `A` and for `B`
and false for every archetype-free `C` other than `T`, `A` and `B`, leaf or not, as soon
as the fuel allows the three pops. -/
theorem aggregateContainsRecord_tuple (M : SILModule) (hwf : WellFormedAST M)
    (T A B : SILType) (hT : M.C.kindOf T.ty = .Tuple 2)
    (hA : M.getTupleElementType T 0 = A) (hB : M.getTupleElementType T 1 = B)
    (hAB : A ≠ B) (hAleaf : IsLeaf M A) (hBleaf : IsLeaf M B)
    (hTa : M.C.hasArchetype T.ty = false) (hAa : M.C.hasArchetype A.ty = false)
    (hBa : M.C.hasArchetype B.ty = false) :
    (∀ m, 3 ≤ m → aggregateContainsRecord M m T A = some (.ok true)) ∧
    (∀ m, 3 ≤ m → aggregateContainsRecord M m T B = some (.ok true)) ∧
    ∀ C : SILType, M.C.hasArchetype C.ty = false → C ≠ T → C ≠ A → C ≠ B →
      ∀ m, 3 ≤ m → aggregateContainsRecord M m T C = some (.ok false) := by
  have hsub := subRecords_pair M T A B hT hA hB
  have hedgeA : MemberEdge M T A := hA ▸ MemberEdge.tupleSlot hT (by decide)
  have hedgeB : MemberEdge M T B := hB ▸ MemberEdge.tupleSlot hT (by decide)
  have hTA : T ≠ A := fun h => hAleaf B (h ▸ hedgeB)
  have hTB : T ≠ B := fun h => hBleaf A (h ▸ hedgeA)
  refine ⟨?_, ?_, ?_⟩
  · intro m hm
    obtain ⟨k, rfl⟩ : ∃ k, m = k + 3 := ⟨m - 3, by omega⟩
    unfold aggregateContainsRecord
    simp only [hTa, hAa, Bool.false_eq_true, if_false]
    rw [loop_step M hwf A T hTA, hsub]
    show aggregateContainsRecordLoop M A (k + 1 + 1) [B, A] = _
    rw [loop_step_leaf M hwf A B (Ne.symm hAB) hBleaf, loop_step_found]
  · intro m hm
    obtain ⟨k, rfl⟩ : ∃ k, m = k + 3 := ⟨m - 3, by omega⟩
    unfold aggregateContainsRecord
    simp only [hTa, hBa, Bool.false_eq_true, if_false]
    rw [loop_step M hwf B T hTB, hsub]
    show aggregateContainsRecordLoop M B (k + 1 + 1) [B, A] = _
    rw [loop_step_found]
  · intro C hCa hCT hCA hCB m hm
    obtain ⟨k, rfl⟩ : ∃ k, m = k + 3 := ⟨m - 3, by omega⟩
    unfold aggregateContainsRecord
    simp only [hTa, hCa, Bool.false_eq_true, if_false]
    rw [loop_step M hwf C T (Ne.symm hCT), hsub]
    show aggregateContainsRecordLoop M C (k + 1 + 1) [B, A] = _
    rw [loop_step_leaf M hwf C B (Ne.symm hCB) hBleaf,
      loop_step_leaf M hwf C A (Ne.symm hCA) hAleaf]
    cases k <;> rfl

/-- Witness of C4 on the example module: the tuple is type 2, its slots are the
primitives 0 and 1, and the class 3 is a type that is none of them. -/
theorem aggregateContainsRecord_tuple_witness :
    WellFormedAST exampleModule ∧
    exampleModule.C.kindOf 2 = .Tuple 2 ∧
    exampleModule.getTupleElementType ⟨2, .Object⟩ 0 = ⟨0, .Object⟩ ∧
    exampleModule.getTupleElementType ⟨2, .Object⟩ 1 = ⟨1, .Object⟩ ∧
    IsLeaf exampleModule ⟨0, .Object⟩ ∧ IsLeaf exampleModule ⟨1, .Object⟩ ∧
    aggregateContainsRecord exampleModule 3 ⟨2, .Object⟩ ⟨0, .Object⟩ = some (.ok true) ∧
    aggregateContainsRecord exampleModule 3 ⟨2, .Object⟩ ⟨1, .Object⟩ = some (.ok true) ∧
    aggregateContainsRecord exampleModule 3 ⟨2, .Object⟩ ⟨3, .Object⟩ = some (.ok false) :=
  have hA : IsLeaf exampleModule ⟨0, .Object⟩ :=
    (isLeaf_iff_subRecords exampleModule _).mpr rfl
  have hB : IsLeaf exampleModule ⟨1, .Object⟩ :=
    (isLeaf_iff_subRecords exampleModule _).mpr rfl
  have h := aggregateContainsRecord_tuple exampleModule exampleModule_wellFormed
    ⟨2, .Object⟩ ⟨0, .Object⟩ ⟨1, .Object⟩ rfl rfl rfl (by decide) hA hB rfl rfl rfl
  ⟨exampleModule_wellFormed, rfl, rfl, rfl, hA, hB, h.1 3 (le_refl 3), h.2.1 3 (le_refl 3),
    h.2.2 ⟨3, .Object⟩ rfl (by decide) (by decide) (by decide) 3 (le_refl 3)⟩

/-- C5: for every module, well formed or not, and every archetype-free type `t` of
either category and any shape, `aggregateContainsRecord(t, t)` returns true with fuel
for a single iteration, so on the first pop and before any member is projected. -/
theorem aggregateContainsRecord_refl (M : SILModule) (t : SILType)
    (ht : M.C.hasArchetype t.ty = false) :
    aggregateContainsRecord M 1 t t = some (.ok true) ∧
    ∀ fuel, aggregateContainsRecord M (fuel + 1) t t = some (.ok true) := by
  have h : ∀ fuel, aggregateContainsRecord M (fuel + 1) t t = some (.ok true) := by
    intro fuel
    unfold aggregateContainsRecord
    simp only [ht, Bool.false_eq_true, if_false]
    exact loop_step_found M t fuel []
  exact ⟨h 0, h⟩

/-- Witness of C5 on the example module, at the Address view of the structure `S`. -/
theorem aggregateContainsRecord_refl_witness :
    exampleModule.C.hasArchetype 4 = false ∧
    aggregateContainsRecord exampleModule 1 ⟨4, .Address⟩ ⟨4, .Address⟩ = some (.ok true) :=
  ⟨rfl, (aggregateContainsRecord_refl exampleModule ⟨4, .Address⟩ rfl).1⟩

/-- C6: for every aggregate and every stored field whose declaration context is the
nominal declaration of the aggregate, `getFieldType` returns a type with the identity of
the cache-lowered substituted field type, whose category is Address if and only if the
aggregate is Address-category or class-shaped, and Value otherwise: a class-shaped
aggregate yields Address in both categories, any other aggregate yields its own
category, whatever category the lowering cache returned. -/
theorem getFieldType_category (M : SILModule) (self : SILType) (field : VarDecl)
    (hown : some field.declContext = getNominalOrBoundGenericNominal M self) :
    ∃ r, getFieldType M self field = .ok r ∧
      r.ty = (M.getLoweredTypeWithPattern ⟨field.type⟩
        (M.C.getTypeOfMember self.ty field)).ty ∧
      (r.category = .Address ↔
        (self.category = .Address ∨ (getClassOrBoundGenericClass M self).isSome = true)) ∧
      (r.category = .Object ↔
        ¬ (self.category = .Address ∨ (getClassOrBoundGenericClass M self).isSome = true)) ∧
      ((getClassOrBoundGenericClass M self).isSome = true → r.category = .Address) ∧
      ((getClassOrBoundGenericClass M self).isSome = false → r.category = self.category) := by
  unfold getFieldType
  rw [if_pos hown]
  obtain ⟨ty, cat⟩ := self
  cases hcls : (getClassOrBoundGenericClass M ⟨ty, cat⟩).isSome <;> cases cat <;>
    simp [SILType.isAddress, SILType.getAddressType, SILType.getObjectType]

/-- Witness of C6 on the example module: the field of the class `K`, projected from
the Value view of `K`, is an address, although the cache lowered it as a value. -/
theorem getFieldType_category_witness :
    some (⟨100, 10, 0⟩ : VarDecl).declContext =
      getNominalOrBoundGenericNominal exampleModule ⟨3, .Object⟩ ∧
    getFieldType exampleModule ⟨3, .Object⟩ ⟨100, 10, 0⟩ = .ok ⟨0, .Address⟩ ∧
    getFieldType exampleModule ⟨4, .Object⟩ ⟨101, 11, 3⟩ = .ok ⟨3, .Object⟩ ∧
    getFieldType exampleModule ⟨4, .Address⟩ ⟨101, 11, 3⟩ = .ok ⟨3, .Address⟩ ∧
    ∃ r, getFieldType exampleModule ⟨3, .Object⟩ ⟨100, 10, 0⟩ = .ok r ∧
      r.ty = (exampleModule.getLoweredTypeWithPattern ⟨0⟩
        (exampleModule.C.getTypeOfMember 3 ⟨100, 10, 0⟩)).ty ∧
      (r.category = .Address ↔ ((⟨3, .Object⟩ : SILType).category = .Address ∨
        (getClassOrBoundGenericClass exampleModule ⟨3, .Object⟩).isSome = true)) ∧
      (r.category = .Object ↔ ¬ ((⟨3, .Object⟩ : SILType).category = .Address ∨
        (getClassOrBoundGenericClass exampleModule ⟨3, .Object⟩).isSome = true)) ∧
      ((getClassOrBoundGenericClass exampleModule ⟨3, .Object⟩).isSome = true →
        r.category = .Address) ∧
      ((getClassOrBoundGenericClass exampleModule ⟨3, .Object⟩).isSome = false →
        r.category = (⟨3, .Object⟩ : SILType).category) :=
  ⟨rfl, rfl, rfl, rfl, getFieldType_category exampleModule ⟨3, .Object⟩ ⟨100, 10, 0⟩ rfl⟩

/-- C7: for every enumeration-shaped aggregate and every case that belongs to its
declaration and carries a payload, `getEnumElementType` returns the identity of the
cache-lowered substituted payload type in the category of the aggregate, whatever
category the lowering cache returned. -/
theorem getEnumElementType_category (M : SILModule) (self : SILType) (elt : EnumElementDecl)
    (origEltTy : TypePtr)
    (hown : some elt.declContext = getEnumOrBoundGenericEnum M self)
    (harg : elt.argumentType = some origEltTy) :
    getEnumElementType M self elt =
      .ok ⟨(M.getLoweredTypeWithPattern ⟨origEltTy⟩
        (M.C.getTypeOfEnumElement self.ty elt origEltTy)).ty, self.category⟩ ∧
    ∃ r, getEnumElementType M self elt = .ok r ∧ r.category = self.category ∧
      (self.category = .Address → r.category = .Address) ∧
      (self.category = .Object → r.category = .Object) ∧
      r.ty = (M.getLoweredTypeWithPattern ⟨origEltTy⟩
        (M.C.getTypeOfEnumElement self.ty elt origEltTy)).ty := by
  have h : getEnumElementType M self elt =
      .ok ⟨(M.getLoweredTypeWithPattern ⟨origEltTy⟩
        (M.C.getTypeOfEnumElement self.ty elt origEltTy)).ty, self.category⟩ := by
    unfold getEnumElementType
    rw [if_pos hown, harg]
  exact ⟨h, _, h, rfl, fun hc => hc, fun hc => hc, rfl⟩

/-- Witness of C7 on the example module: the payload of `some` projected from the
Address view of `Optional<A>` is an address, although the cache lowered it as a value. -/
theorem getEnumElementType_category_witness :
    some (⟨102, 12, some 0⟩ : EnumElementDecl).declContext =
      getEnumOrBoundGenericEnum exampleModule ⟨5, .Address⟩ ∧
    (⟨102, 12, some 0⟩ : EnumElementDecl).argumentType = some 0 ∧
    exampleModule.getLoweredTypeWithPattern ⟨0⟩ 0 = ⟨0, .Object⟩ ∧
    getEnumElementType exampleModule ⟨5, .Address⟩ ⟨102, 12, some 0⟩ = .ok ⟨0, .Address⟩ :=
  ⟨rfl, rfl, rfl,
    (getEnumElementType_category exampleModule ⟨5, .Address⟩ ⟨102, 12, some 0⟩ 0 rfl rfl).1⟩

/-- C8: if the identity of `t` is the bound generic enumeration of a declaration
classified as Optional, with the canonical type `A` as its sole generic argument, then
`getOptionalObjectType` returns the lowered type the cache gives for `A`, for every `A`
(leaf or not) and for both categories of `t`. -/
theorem getOptionalObjectType_wrap (M : SILModule) (t : SILType) (decl : DeclPtr) (A : TypePtr)
    (hk : M.C.kindOf t.ty = .BoundGenericEnum decl [A])
    (hopt : M.C.classifyAsOptionalType decl = .OTK_Optional)
    (hA : M.C.getCanonicalType A = A) :
    getOptionalObjectType M t = .ok (some (M.getLoweredType A)) := by
  unfold getOptionalObjectType getAsBoundGenericEnumType SILType.getObjectType
  simp only [hk, hopt, if_true, hA]

/-- Witness of C8 on the example module: unwrapping `Optional<A>` yields `A`. -/
theorem getOptionalObjectType_wrap_witness :
    exampleModule.C.kindOf 5 = .BoundGenericEnum 12 [0] ∧
    exampleModule.C.classifyAsOptionalType 12 = .OTK_Optional ∧
    exampleModule.C.getCanonicalType 0 = 0 ∧
    getOptionalObjectType exampleModule ⟨5, .Object⟩ = .ok (some ⟨0, .Object⟩) :=
  ⟨rfl, rfl, rfl, getOptionalObjectType_wrap exampleModule ⟨5, .Object⟩ 12 0 rfl rfl rfl⟩

/-- C9: provided a bound generic enumeration has at least one generic argument,
`getOptionalObjectType` returns a present result if and only if the identity of `t` is a
bound generic enumeration whose declaration is classified as Optional; for every other
shape it returns the null type; and the Value view and the Address view of `t` give the
same outcome. -/
theorem getOptionalObjectType_present_iff (M : SILModule) (t : SILType)
    (hargs : ∀ decl args, M.C.kindOf t.ty = .BoundGenericEnum decl args → args ≠ []) :
    ((∃ r, getOptionalObjectType M t = .ok (some r)) ↔
      ∃ decl args, M.C.kindOf t.ty = .BoundGenericEnum decl args ∧
        M.C.classifyAsOptionalType decl = .OTK_Optional) ∧
    ((¬ ∃ decl args, M.C.kindOf t.ty = .BoundGenericEnum decl args ∧
        M.C.classifyAsOptionalType decl = .OTK_Optional) →
      getOptionalObjectType M t = .ok none) ∧
    getOptionalObjectType M t.getObjectType = getOptionalObjectType M t ∧
    getOptionalObjectType M t.getAddressType = getOptionalObjectType M t := by
  refine ⟨?_, ?_, rfl, rfl⟩
  · unfold getOptionalObjectType getAsBoundGenericEnumType SILType.getObjectType
    cases hk : M.C.kindOf t.ty with
    | BoundGenericEnum decl args =>
      cases args with
      | nil => exact absurd rfl (hargs decl [] hk)
      | cons a rest =>
        by_cases hopt : M.C.classifyAsOptionalType decl = .OTK_Optional <;> simp [hopt]
    | _ => simp
  · intro hno
    unfold getOptionalObjectType getAsBoundGenericEnumType SILType.getObjectType
    cases hk : M.C.kindOf t.ty with
    | BoundGenericEnum decl args =>
      have hopt : M.C.classifyAsOptionalType decl ≠ .OTK_Optional :=
        fun h => hno ⟨decl, args, hk, h⟩
      simp [hopt]
    | _ => simp

/-- Witness of C9 on the example module: the structure `S` is not an optional. -/
theorem getOptionalObjectType_present_iff_witness :
    (∀ decl args, exampleModule.C.kindOf 4 = .BoundGenericEnum decl args → args ≠ []) ∧
    getOptionalObjectType exampleModule ⟨4, .Object⟩ = .ok none ∧
    getOptionalObjectType exampleModule ⟨5, .Address⟩ = .ok (some ⟨0, .Object⟩) ∧
    ((∃ r, getOptionalObjectType exampleModule ⟨4, .Object⟩ = .ok (some r)) ↔
      ∃ decl args, exampleModule.C.kindOf 4 = .BoundGenericEnum decl args ∧
        exampleModule.C.classifyAsOptionalType decl = .OTK_Optional) :=
  have hargs : ∀ decl args, exampleModule.C.kindOf 4 = .BoundGenericEnum decl args → args ≠ [] :=
    fun _ _ h => by cases h
  ⟨hargs, rfl, rfl, (getOptionalObjectType_present_iff exampleModule ⟨4, .Object⟩ hargs).1⟩

/-- C10: for a function-shaped `fn`, `substInterfaceGenericArgs` fails a contract
assertion exactly when the substitution list is non-empty and `fn` is not polymorphic,
or the list is empty and `fn` is polymorphic; whenever the list is empty if and only if
`fn` is not polymorphic, the call returns a type. -/
theorem substInterfaceGenericArgs_rejected_iff (M : SILModule) (fn : SILType)
    (isPolymorphic : Bool) (hfn : M.C.kindOf fn.ty = .SILFunction isPolymorphic)
    (Subs : List Substitution) :
    (substInterfaceGenericArgs M fn Subs = .assertionFailure ↔
      (Subs ≠ [] ∧ isPolymorphic = false) ∨ (Subs = [] ∧ isPolymorphic = true)) ∧
    ((Subs = [] ↔ isPolymorphic = false) → ∃ r, substInterfaceGenericArgs M fn Subs = .ok r) := by
  unfold substInterfaceGenericArgs
  rw [hfn]
  cases Subs <;> cases isPolymorphic <;> simp

/-- Witness of C10 on the example module: the closed function type 6 rejects a
non-empty list and accepts the empty one; the polymorphic type 7 does the opposite. -/
theorem substInterfaceGenericArgs_rejected_iff_witness :
    exampleModule.C.kindOf 6 = .SILFunction false ∧
    substInterfaceGenericArgs exampleModule ⟨6, .Object⟩ [⟨0, 1⟩] = .assertionFailure ∧
    substInterfaceGenericArgs exampleModule ⟨6, .Object⟩ [] = .ok ⟨6, .Object⟩ ∧
    substInterfaceGenericArgs exampleModule ⟨7, .Object⟩ [] = .assertionFailure ∧
    substInterfaceGenericArgs exampleModule ⟨7, .Object⟩ [⟨0, 1⟩] = .ok ⟨6, .Object⟩ ∧
    (substInterfaceGenericArgs exampleModule ⟨6, .Object⟩ [⟨0, 1⟩] = .assertionFailure ↔
      (([⟨0, 1⟩] : List Substitution) ≠ [] ∧ false = false) ∨
        (([⟨0, 1⟩] : List Substitution) = [] ∧ false = true)) :=
  ⟨rfl, rfl, rfl, rfl, rfl,
    (substInterfaceGenericArgs_rejected_iff exampleModule ⟨6, .Object⟩ false rfl [⟨0, 1⟩]).1⟩

/-- C11, refuted as stated: the closed function type 6 of the example module, viewed in
the Address category and specialized with the empty list (the precondition holds), is
returned unchanged, so the result is in the Address category, not in the Value one. -/
theorem substInterfaceGenericArgs_value_counterexample :
    exampleModule.C.kindOf 6 = .SILFunction false ∧
    (([] : List Substitution) = [] ↔ false = false) ∧
    substInterfaceGenericArgs exampleModule ⟨6, .Address⟩ [] = .ok ⟨6, .Address⟩ ∧
    ¬ ∃ r, substInterfaceGenericArgs exampleModule ⟨6, .Address⟩ [] = .ok r ∧
      r.category = .Object := by
  refine ⟨rfl, by simp, rfl, ?_⟩
  rintro ⟨r, hr, hcat⟩
  have h : substInterfaceGenericArgs exampleModule ⟨6, .Address⟩ [] = .ok ⟨6, .Address⟩ := rfl
  rw [h] at hr
  simp only [Checked.ok.injEq] at hr
  rw [← hr] at hcat
  exact absurd hcat (by decide)

/-- C11, amended: for a function-shaped `fn` and a substitution list that is empty if
and only if `fn` is not polymorphic, `substInterfaceGenericArgs` returns a type; with a
non-empty list it is the substituted function type in the Value category, with the empty
list it is `fn` itself in the category of `fn`; so the result is in the Value category
exactly when the list is non-empty or `fn` is in the Value category. -/
theorem substInterfaceGenericArgs_category (M : SILModule) (fn : SILType)
    (isPolymorphic : Bool) (hfn : M.C.kindOf fn.ty = .SILFunction isPolymorphic)
    (Subs : List Substitution) (hpre : Subs = [] ↔ isPolymorphic = false) :
    ∃ r, substInterfaceGenericArgs M fn Subs = .ok r ∧
      (Subs ≠ [] →
        r = SILType.getPrimitiveObjectType (M.C.substInterfaceGenericArgs fn.ty Subs) ∧
        r.category = .Object) ∧
      (Subs = [] → r = fn) ∧
      (r.category = .Object ↔ (Subs ≠ [] ∨ fn.category = .Object)) ∧
      (fn.category = .Object → r.category = .Object) := by
  unfold substInterfaceGenericArgs
  rw [hfn]
  cases Subs with
  | nil =>
    have hp : isPolymorphic = false := hpre.mp rfl
    subst hp
    exact ⟨fn, by simp, by simp, fun _ => rfl, by simp, fun h => h⟩
  | cons a rest =>
    have hp : isPolymorphic = true := by
      cases isPolymorphic with
      | true => rfl
      | false => exact absurd (hpre.mpr rfl) (by simp)
    subst hp
    exact ⟨_, by simp, fun _ => ⟨rfl, rfl⟩, by simp,
      by simp [SILType.getPrimitiveObjectType], fun _ => rfl⟩

/-- Witness of the amended C11 on the example module: the polymorphic function type 7 in
the Address category, specialized with a non-empty list, gives a Value-category type. -/
theorem substInterfaceGenericArgs_category_witness :
    exampleModule.C.kindOf 7 = .SILFunction true ∧
    (([⟨0, 1⟩] : List Substitution) = [] ↔ true = false) ∧
    substInterfaceGenericArgs exampleModule ⟨7, .Address⟩ [⟨0, 1⟩] = .ok ⟨6, .Object⟩ ∧
    ∃ r, substInterfaceGenericArgs exampleModule ⟨7, .Address⟩ [⟨0, 1⟩] = .ok r ∧
      (([⟨0, 1⟩] : List Substitution) ≠ [] →
        r = SILType.getPrimitiveObjectType
          (exampleModule.C.substInterfaceGenericArgs 7 [⟨0, 1⟩]) ∧
        r.category = .Object) ∧
      (([⟨0, 1⟩] : List Substitution) = [] → r = ⟨7, .Address⟩) ∧
      (r.category = .Object ↔
        (([⟨0, 1⟩] : List Substitution) ≠ [] ∨
          (⟨7, .Address⟩ : SILType).category = .Object)) ∧
      ((⟨7, .Address⟩ : SILType).category = .Object → r.category = .Object) :=
  ⟨rfl, by simp, rfl,
    substInterfaceGenericArgs_category exampleModule ⟨7, .Address⟩ true rfl [⟨0, 1⟩]
      (by simp)⟩

/-- C12: in a finite acyclic member graph, with no visited set, the worklist loop of
`aggregateContainsRecord` ends: there is a cost of types, strictly larger than the
total cost of the types pushed for it, and fuel for the total cost of the worklist makes
the loop return, on every worklist and every AST; so the function returns for every
root and target, and on a well-formed AST with archetype-free arguments it returns a
boolean. -/
theorem aggregateContainsRecord_terminates (M : SILModule) (hfin : FiniteAcyclic M)
    (target : SILType) :
    (∃ cost : SILType → Nat, (∀ t, ((subRecords M t).map cost).sum < cost t) ∧
      ∀ wl m, (wl.map cost).sum ≤ m →
        ∃ r, aggregateContainsRecordLoop M target m wl = some r) ∧
    (∀ wl, ∃ n, ∀ m, n ≤ m → ∃ r, aggregateContainsRecordLoop M target m wl = some r) ∧
    (∀ root, ∃ n, ∀ m, n ≤ m → ∃ r, aggregateContainsRecord M m root target = some r) ∧
    (WellFormedAST M → ∀ root, M.C.hasArchetype root.ty = false →
      M.C.hasArchetype target.ty = false →
      ∃ n, ∀ m, n ≤ m → ∃ b : Bool, aggregateContainsRecord M m root target = some (.ok b)) := by
  obtain ⟨cost, hcost⟩ := exists_cost M (wellFounded_of_finiteAcyclic M hfin)
  have hloop : ∀ wl m, (wl.map cost).sum ≤ m →
      ∃ r, aggregateContainsRecordLoop M target m wl = some r :=
    fun wl m hm => loop_ends M cost hcost target m wl hm
  refine ⟨⟨cost, hcost, hloop⟩, fun wl => ⟨(wl.map cost).sum, fun m hm => hloop wl m hm⟩,
    fun root => ⟨cost root, fun m hm => ?_⟩, fun hwf root hroot htarget => ?_⟩
  · unfold aggregateContainsRecord
    split
    · exact ⟨_, rfl⟩
    · split
      · exact ⟨_, rfl⟩
      · exact hloop [root] m (by simpa using hm)
  · refine ⟨cost root, fun m hm => ?_⟩
    obtain ⟨r, hr⟩ := hloop [root] m (by simpa using hm)
    have hagg : aggregateContainsRecord M m root target = some r := by
      unfold aggregateContainsRecord
      simp only [hroot, htarget, Bool.false_eq_true, if_false]
      exact hr
    cases r with
    | ok b => exact ⟨b, hagg⟩
    | assertionFailure => exact absurd hr (loop_no_assertion M hwf target m [root])

/-- Witness of C12 on the nested module, whose structure `P` holds a tuple of two
primitives: four pops end the search for a type that is not there, three do not. -/
theorem aggregateContainsRecord_terminates_witness :
    FiniteAcyclic nestedModule ∧
    aggregateContainsRecord nestedModule 3 ⟨8, .Object⟩ ⟨3, .Object⟩ = none ∧
    aggregateContainsRecord nestedModule 4 ⟨8, .Object⟩ ⟨3, .Object⟩ = some (.ok false) ∧
    ∃ n, ∀ m, n ≤ m →
      ∃ r, aggregateContainsRecord nestedModule m ⟨8, .Object⟩ ⟨3, .Object⟩ = some r :=
  ⟨nestedModule_finiteAcyclic, by decide, by decide,
    (aggregateContainsRecord_terminates nestedModule nestedModule_finiteAcyclic
      ⟨3, .Object⟩).2.2.1 ⟨8, .Object⟩⟩

/-- C13: `isHeapObjectReferenceType` is true if and only if the identity of the type
may have a superclass, or equals the native-object built-in, or equals the
unknown-object built-in; it is false for every other identity; and the result is the
same for every storage category of the same identity. -/
theorem isHeapObjectReferenceType_iff (M : SILModule) (t : SILType) :
    (isHeapObjectReferenceType M t = true ↔
      (M.C.mayHaveSuperclass t.ty = true ∨ t.ty = M.C.TheNativeObjectType ∨
        t.ty = M.C.TheUnknownObjectType)) ∧
    (isHeapObjectReferenceType M t = false ↔
      ¬ (M.C.mayHaveSuperclass t.ty = true ∨ t.ty = M.C.TheNativeObjectType ∨
        t.ty = M.C.TheUnknownObjectType)) ∧
    (∀ cat : SILValueCategory, isHeapObjectReferenceType M ⟨t.ty, cat⟩ =
      isHeapObjectReferenceType M t) ∧
    isHeapObjectReferenceType M t.getObjectType = isHeapObjectReferenceType M t.getAddressType := by
  have h : isHeapObjectReferenceType M t = true ↔
      (M.C.mayHaveSuperclass t.ty = true ∨ t.ty = M.C.TheNativeObjectType ∨
        t.ty = M.C.TheUnknownObjectType) := by
    unfold isHeapObjectReferenceType
    by_cases h1 : M.C.mayHaveSuperclass t.ty = true
    · simp [h1]
    · by_cases h2 : t.ty = M.C.TheNativeObjectType
      · simp [h1, h2]
      · by_cases h3 : t.ty = M.C.TheUnknownObjectType <;> simp [h1, h2, h3]
  refine ⟨h, ?_, fun _ => rfl, rfl⟩
  rw [← h]
  simp

/-- C14: forcing the category never changes the identity, `getObjectType` and
`getAddressType` are idempotent, and going to the Value view, to the Address view and
back to the Value view gives the Value view. -/
theorem category_round_trip (t : SILType) :
    t.getObjectType.getAddressType.getObjectType = t.getObjectType ∧
    t.getObjectType.getObjectType = t.getObjectType ∧
    t.getAddressType.getAddressType = t.getAddressType ∧
    t.getObjectType.ty = t.ty ∧ t.getAddressType.ty = t.ty ∧
    t.getObjectType.category = .Object ∧ t.getAddressType.category = .Address :=
  ⟨rfl, rfl, rfl, rfl, rfl, rfl, rfl⟩

/-- C15: every primitive factory of `SILType.cpp` returns the corresponding built-in
identity of the context in the Value category, for every bit width and each of the six
floating-point kinds; `getNativeObjectType`, which calls the constructor, agrees with
`getPrimitiveObjectType` on the same identity; and equal inputs give equal results. -/
theorem primitive_factories (C : ASTContext) :
    getNativeObjectType C = ⟨C.TheNativeObjectType, .Object⟩ ∧
    getUnknownObjectType C = ⟨C.TheUnknownObjectType, .Object⟩ ∧
    getRawPointerType C = ⟨C.TheRawPointerType, .Object⟩ ∧
    (∀ bitWidth, getBuiltinIntegerType bitWidth C =
      ⟨C.getBuiltinIntegerType bitWidth, .Object⟩) ∧
    getBuiltinFloatType .IEEE16 C = ⟨C.TheIEEE16Type, .Object⟩ ∧
    getBuiltinFloatType .IEEE32 C = ⟨C.TheIEEE32Type, .Object⟩ ∧
    getBuiltinFloatType .IEEE64 C = ⟨C.TheIEEE64Type, .Object⟩ ∧
    getBuiltinFloatType .IEEE80 C = ⟨C.TheIEEE80Type, .Object⟩ ∧
    getBuiltinFloatType .IEEE128 C = ⟨C.TheIEEE128Type, .Object⟩ ∧
    getBuiltinFloatType .PPC128 C = ⟨C.ThePPC128Type, .Object⟩ ∧
    getBuiltinWordType C = ⟨C.getWordType, .Object⟩ ∧
    (∀ Kind, (getBuiltinFloatType Kind C).category = .Object) ∧
    getNativeObjectType C = SILType.getPrimitiveObjectType C.TheNativeObjectType ∧
    (∀ (w1 w2 : Nat) (C2 : ASTContext), w1 = w2 → C = C2 →
      getBuiltinIntegerType w1 C = getBuiltinIntegerType w2 C2) ∧
    (∀ (k1 k2 : FPKind) (C2 : ASTContext), k1 = k2 → C = C2 →
      getBuiltinFloatType k1 C = getBuiltinFloatType k2 C2) ∧
    (∀ C2 : ASTContext, C = C2 →
      getNativeObjectType C = getNativeObjectType C2 ∧
      getUnknownObjectType C = getUnknownObjectType C2 ∧
      getRawPointerType C = getRawPointerType C2 ∧
      getBuiltinWordType C = getBuiltinWordType C2) := by
  refine ⟨rfl, rfl, rfl, fun _ => rfl, rfl, rfl, rfl, rfl, rfl, rfl, rfl, ?_, rfl, ?_, ?_, ?_⟩
  · intro Kind
    cases Kind <;> rfl
  · rintro w1 w2 C2 rfl rfl
    rfl
  · rintro k1 k2 C2 rfl rfl
    rfl
  · rintro C2 rfl
    exact ⟨rfl, rfl, rfl, rfl⟩

/-- Witness of C15 on the context of the example module: the 32-bit integer type. -/
theorem primitive_factories_witness :
    getBuiltinIntegerType 32 exampleContext = ⟨132, .Object⟩ ∧
    getNativeObjectType exampleContext = ⟨20, .Object⟩ ∧
    getBuiltinIntegerType 32 exampleContext = getBuiltinIntegerType 32 exampleContext :=
  ⟨(primitive_factories exampleContext).2.2.2.1 32, (primitive_factories exampleContext).1,
    (primitive_factories exampleContext).2.2.2.2.2.2.2.2.2.2.2.2.2.1 32 32 exampleContext
      rfl rfl⟩

/-- C16: for archetype-free root and target, on any AST, if the root has no member
edges (a class, protocol, function, metatype or primitive type, an enumeration none of
whose cases carries a payload, a structure without stored fields, an empty tuple), then
`aggregateContainsRecord` returns whether the root equals the target, with fuel for a
single iteration. -/
theorem aggregateContainsRecord_no_members (M : SILModule) (root target : SILType)
    (hroot : M.C.hasArchetype root.ty = false) (htarget : M.C.hasArchetype target.ty = false)
    (h : HasNoMembers M root) :
    ∀ fuel, aggregateContainsRecord M (fuel + 1) root target =
      some (.ok (decide (root = target))) := by
  intro fuel
  unfold aggregateContainsRecord
  simp only [hroot, htarget, Bool.false_eq_true, if_false]
  by_cases hEq : root = target
  · subst hEq
    simp [loop_step_found]
  · rw [loop_step_noMembers M target root hEq h]
    simp only [hEq, decide_False]
    cases fuel <;> rfl

/-- Witness of C16 on the example module: the class `K` has a stored field, but as a
root it contains only itself. -/
theorem aggregateContainsRecord_no_members_witness :
    HasNoMembers exampleModule ⟨3, .Object⟩ ∧
    getFieldType exampleModule ⟨3, .Object⟩ ⟨100, 10, 0⟩ = .ok ⟨0, .Address⟩ ∧
    aggregateContainsRecord exampleModule 1 ⟨3, .Object⟩ ⟨0, .Address⟩ = some (.ok false) ∧
    aggregateContainsRecord exampleModule 1 ⟨3, .Object⟩ ⟨3, .Object⟩ = some (.ok true) :=
  have h : HasNoMembers exampleModule ⟨3, .Object⟩ := trivial
  ⟨h, rfl,
    aggregateContainsRecord_no_members exampleModule ⟨3, .Object⟩ ⟨0, .Address⟩ rfl rfl h 0,
    by decide⟩

/-- C17: on a well-formed AST (the cases and stored properties listed by a declaration
have it as their context), every projection the loop performs meets its preconditions:
a payload-carrying case of the enumeration of the popped type passes both assertions of
`getEnumElementType`, a stored property of the structure of the popped type passes the
assertion of `getFieldType`, both push loops succeed, and neither the loop nor the
function on archetype-free arguments ever stops at a failed assertion. -/
theorem aggregateContainsRecord_projections_safe (M : SILModule) (hwf : WellFormedAST M) :
    (∀ Ty E elt, getEnumOrBoundGenericEnum M Ty = some E → elt ∈ M.C.getAllElements E →
      elt.hasArgumentType = true →
      some elt.declContext = getEnumOrBoundGenericEnum M Ty ∧
      ∃ c, getEnumElementType M Ty elt = .ok c) ∧
    (∀ Ty S v, getStructOrBoundGenericStruct M Ty = some S → v ∈ M.C.getStoredProperties S →
      some v.declContext = getNominalOrBoundGenericNominal M Ty ∧
      ∃ c, getFieldType M Ty v = .ok c) ∧
    (∀ Ty E wl, getEnumOrBoundGenericEnum M Ty = some E →
      ∃ wl1, pushEnumElements M Ty (M.C.getAllElements E) wl = .ok wl1) ∧
    (∀ Ty S wl, getStructOrBoundGenericStruct M Ty = some S →
      ∃ wl1, pushStoredProperties M Ty (M.C.getStoredProperties S) wl = .ok wl1) ∧
    (∀ target fuel wl, aggregateContainsRecordLoop M target fuel wl ≠ some .assertionFailure) ∧
    (∀ root target fuel, M.C.hasArchetype root.ty = false → M.C.hasArchetype target.ty = false →
      aggregateContainsRecord M fuel root target ≠ some .assertionFailure) := by
  refine ⟨?_, ?_, ?_, ?_, fun target fuel wl => loop_no_assertion M hwf target fuel wl, ?_⟩
  · intro Ty E elt hE helt harg
    have hown : some elt.declContext = getEnumOrBoundGenericEnum M Ty := by
      rw [hE, hwf.elementOwner E elt helt]
    refine ⟨hown, ?_⟩
    obtain ⟨a, ha⟩ := Option.isSome_iff_exists.mp harg
    unfold getEnumElementType
    rw [if_pos hown, ha]
    exact ⟨_, rfl⟩
  · intro Ty S v hS hv
    have hown : some v.declContext = getNominalOrBoundGenericNominal M Ty := by
      rw [nominal_of_struct M Ty S hS, hwf.propertyOwner S v hv]
    refine ⟨hown, ?_⟩
    unfold getFieldType
    rw [if_pos hown]
    split <;> exact ⟨_, rfl⟩
  · intro Ty E wl hE
    exact ⟨_, pushEnumElements_eq M Ty E hE _ (hwf.elementOwner E) wl⟩
  · intro Ty S wl hS
    exact ⟨_, pushStoredProperties_eq M Ty S hS _ (hwf.propertyOwner S) wl⟩
  · intro root target fuel hroot htarget
    unfold aggregateContainsRecord
    simp only [hroot, htarget, Bool.false_eq_true, if_false]
    exact loop_no_assertion M hwf target fuel [root]

/-- Witness of C17 on the example module: the search through `Optional<A>` projects the
payload of `some` and returns a boolean. -/
theorem aggregateContainsRecord_projections_safe_witness :
    WellFormedAST exampleModule ∧
    getEnumElementType exampleModule ⟨5, .Object⟩ ⟨102, 12, some 0⟩ = .ok ⟨0, .Object⟩ ∧
    aggregateContainsRecord exampleModule 2 ⟨5, .Object⟩ ⟨0, .Object⟩ = some (.ok true) ∧
    aggregateContainsRecord exampleModule 2 ⟨5, .Object⟩ ⟨0, .Object⟩ ≠
      some .assertionFailure :=
  ⟨exampleModule_wellFormed, rfl, by decide,
    (aggregateContainsRecord_projections_safe exampleModule exampleModule_wellFormed).2.2.2.2.2
      ⟨5, .Object⟩ ⟨0, .Object⟩ 2 rfl rfl⟩

/-- C18: a payload type projected from an enumeration and a field type projected from a
structure carry the category of the aggregate.  When tuple-slot projection keeps the
category of the tuple, every type the loop pops has the category of the root, the
function never returns true for a root and a target of different categories, and on a
well-formed AST with a finite acyclic member graph and archetype-free arguments it
returns false for them, in particular for the Value view and the Address view of one
type. -/
theorem aggregateContainsRecord_category (M : SILModule)
    (htuple : ∀ t i, (M.getTupleElementType t i).category = t.category)
    (root target : SILType) :
    (∀ Ty elt c, getEnumElementType M Ty elt = .ok c → c.category = Ty.category) ∧
    (∀ Ty S v c, getStructOrBoundGenericStruct M Ty = some S → getFieldType M Ty v = .ok c →
      c.category = Ty.category) ∧
    (∀ fuel, ∀ t ∈ aggregateContainsRecordPops M target fuel [root],
      t.category = root.category) ∧
    (root.category ≠ target.category →
      ∀ fuel, aggregateContainsRecord M fuel root target ≠ some (.ok true)) ∧
    (root.category ≠ target.category → WellFormedAST M → FiniteAcyclic M →
      M.C.hasArchetype root.ty = false → M.C.hasArchetype target.ty = false →
      ∃ n, ∀ m, n ≤ m → aggregateContainsRecord M m root target = some (.ok false)) ∧
    (∀ t : SILType, WellFormedAST M → FiniteAcyclic M → M.C.hasArchetype t.ty = false →
      ∃ n, ∀ m, n ≤ m →
        aggregateContainsRecord M m t.getObjectType t.getAddressType = some (.ok false)) := by
  have hnot : ∀ r tg : SILType, r.category ≠ tg.category → ¬ Reachable M r tg :=
    fun r tg hne hr => hne (reachable_category M htuple r tg hr).symm
  refine ⟨fun Ty elt c h => getEnumElementType_ok_category M Ty c elt h,
    fun Ty S v c hS h => getFieldType_struct_category M Ty c S v hS h, ?_, ?_, ?_, ?_⟩
  · intro fuel t ht
    obtain ⟨r, hr, hrt⟩ := pops_reachable M target fuel [root] t ht
    rw [List.mem_singleton] at hr
    subst hr
    exact reachable_category M htuple r t hrt
  · intro hne fuel h
    exact hnot root target hne (reachable_of_contains M root target fuel h)
  · intro hne hwf hfin hroot htarget
    exact not_contains_of_not_reachable M hwf hfin root target hroot htarget
      (hnot root target hne)
  · intro t hwf hfin ht
    exact not_contains_of_not_reachable M hwf hfin t.getObjectType t.getAddressType ht ht
      (hnot _ _ (by simp [SILType.getObjectType, SILType.getAddressType]))

/-- Witness of C18 on the nested module: the search from the Value view of `P` pops
`P`, the tuple and its two slots, all in the Value category, and does not find the
Address view of `A`. -/
theorem aggregateContainsRecord_category_witness :
    (∀ t i, (nestedModule.getTupleElementType t i).category = t.category) ∧
    aggregateContainsRecordPops nestedModule ⟨0, .Address⟩ 4 [⟨8, .Object⟩] =
      [⟨8, .Object⟩, ⟨2, .Object⟩, ⟨1, .Object⟩, ⟨0, .Object⟩] ∧
    aggregateContainsRecord nestedModule 4 ⟨8, .Object⟩ ⟨0, .Address⟩ = some (.ok false) ∧
    ∀ fuel, ∀ t ∈ aggregateContainsRecordPops nestedModule ⟨0, .Address⟩ fuel [⟨8, .Object⟩],
      t.category = (⟨8, .Object⟩ : SILType).category :=
  ⟨fun _ _ => rfl, by decide, by decide,
    (aggregateContainsRecord_category nestedModule (fun _ _ => rfl)
      ⟨8, .Object⟩ ⟨0, .Address⟩).2.2.1⟩

/-- C19: on a well-formed AST with a finite acyclic member graph, for archetype-free
`a`, `b` and `c`: if the search from `a` for `b` returns true and the search from `b`
for `c` returns true, then the search from `a` for `c` returns true. -/
theorem aggregateContainsRecord_trans (M : SILModule) (hwf : WellFormedAST M)
    (hfin : FiniteAcyclic M) (a b c : SILType) (ha : M.C.hasArchetype a.ty = false)
    (hc : M.C.hasArchetype c.ty = false)
    (hab : ∃ n, aggregateContainsRecord M n a b = some (.ok true))
    (hbc : ∃ n, aggregateContainsRecord M n b c = some (.ok true)) :
    ∃ n, ∀ m, n ≤ m → aggregateContainsRecord M m a c = some (.ok true) := by
  obtain ⟨n1, h1⟩ := hab
  obtain ⟨n2, h2⟩ := hbc
  have hr : Reachable M a c :=
    Relation.ReflTransGen.trans (reachable_of_contains M a b n1 h1)
      (reachable_of_contains M b c n2 h2)
  exact contains_of_reachable M hwf hfin a c ha hc hr

/-- Witness of C19 on the nested module: `P` contains the tuple, the tuple contains
`A`, and `P` contains `A`. -/
theorem aggregateContainsRecord_trans_witness :
    WellFormedAST nestedModule ∧ FiniteAcyclic nestedModule ∧
    aggregateContainsRecord nestedModule 2 ⟨8, .Object⟩ ⟨2, .Object⟩ = some (.ok true) ∧
    aggregateContainsRecord nestedModule 3 ⟨2, .Object⟩ ⟨0, .Object⟩ = some (.ok true) ∧
    aggregateContainsRecord nestedModule 4 ⟨8, .Object⟩ ⟨0, .Object⟩ = some (.ok true) ∧
    ∃ n, ∀ m, n ≤ m →
      aggregateContainsRecord nestedModule m ⟨8, .Object⟩ ⟨0, .Object⟩ = some (.ok true) :=
  ⟨nestedModule_wellFormed, nestedModule_finiteAcyclic, by decide, by decide, by decide,
    aggregateContainsRecord_trans nestedModule nestedModule_wellFormed
      nestedModule_finiteAcyclic ⟨8, .Object⟩ ⟨2, .Object⟩ ⟨0, .Object⟩ rfl rfl
      ⟨2, by decide⟩ ⟨3, by decide⟩⟩

/-- C20: for a function-shaped `fn` that is not polymorphic, `substInterfaceGenericArgs`
with the empty list returns `fn` itself, identity and category unchanged, and does so
whatever the external substitutor is, which is therefore not consulted. -/
theorem substInterfaceGenericArgs_closed (M : SILModule) (fn : SILType)
    (hfn : M.C.kindOf fn.ty = .SILFunction false) :
    substInterfaceGenericArgs M fn [] = .ok fn ∧
    (∃ r, substInterfaceGenericArgs M fn [] = .ok r ∧ r.ty = fn.ty ∧
      r.category = fn.category) ∧
    ∀ f : CanType → List Substitution → CanType,
      substInterfaceGenericArgs
        { M with C := { M.C with substInterfaceGenericArgs := f } } fn [] = .ok fn := by
  have h : ∀ M1 : SILModule, M1.C.kindOf fn.ty = .SILFunction false →
      substInterfaceGenericArgs M1 fn [] = .ok fn := by
    intro M1 h1
    unfold substInterfaceGenericArgs
    rw [h1]
    rfl
  exact ⟨h M hfn, ⟨fn, h M hfn, rfl, rfl⟩, fun f => h _ hfn⟩

/-- Witness of C20 on the example module: the closed function type 6 in the Address
category comes back as it is. -/
theorem substInterfaceGenericArgs_closed_witness :
    exampleModule.C.kindOf 6 = .SILFunction false ∧
    substInterfaceGenericArgs exampleModule ⟨6, .Address⟩ [] = .ok ⟨6, .Address⟩ :=
  ⟨rfl, (substInterfaceGenericArgs_closed exampleModule ⟨6, .Address⟩ rfl).1⟩

end SILModel
